import Mathlib

/-
  Verification development for the pywrparser network model
  (pywrparser/types/network.py and its companion types).

  The Python code is shallowly embedded: Python dicts become association
  lists (`List (String × _)`), attribute values become the inductive
  `PValue`, and code that can raise becomes `Except String _`.
  Iteration order of Python dicts is insertion order, which the list
  embedding preserves.
-/

set_option maxHeartbeats 1000000

namespace Pywr

/-- A runtime value held by a node attribute or a dict entry.  String,
number, nested dict, `PywrParameter` object (name and data dict) and
`PywrRecorder` object (name and data dict) are the shapes the network
code inspects. -/
inductive PValue where
  | pstr : String → PValue
  | pint : Int → PValue
  | pdict : List (String × PValue) → PValue
  | pparam : String → List (String × PValue) → PValue
  | precorder : String → List (String × PValue) → PValue

/-- Association-list lookup, first match wins, mirroring a Python dict
read (`d.get(k)` / `d[k]`). -/
def alookup {α : Type} : List (String × α) → String → Option α
  | [], _ => none
  | (k, v) :: rest, s => if k = s then some v else alookup rest s

/-- Removal of the entry of a key, mirroring Python `del d[k]` (in a dict
the key occurs at most once; we delete the first occurrence). -/
def aerase {α : Type} : List (String × α) → String → List (String × α)
  | [], _ => []
  | (k, v) :: rest, s => if k = s then rest else (k, v) :: aerase rest s

/-- The keys of an association list, in insertion order. -/
def akeys {α : Type} (l : List (String × α)) : List String :=
  l.map Prod.fst

/-- Python truthiness of the values of `PValue` (`if not x`):
empty strings, zero and empty dicts are falsy; parameter and recorder
objects are always truthy. -/
def truthy : PValue → Bool
  | .pstr s => !s.isEmpty
  | .pint n => n != 0
  | .pdict d => !d.isEmpty
  | .pparam _ _ => true
  | .precorder _ _ => true

/-- `prefixEq n h` holds when the char list `n` is a prefix of `h`. -/
def prefixEq : List Char → List Char → Bool
  | [], _ => true
  | _ :: _, [] => false
  | a :: as, b :: bs => a = b && prefixEq as bs

/-- `hasSub n h`: the char list `n` occurs as a contiguous substring of
`h`, mirroring Python `n in h` on strings. -/
def hasSub (needle : List Char) : List Char → Bool
  | [] => needle.isEmpty
  | c :: cs => prefixEq needle (c :: cs) || hasSub needle cs

/-- Python `str.lower()` (over the character list, so that it computes
by kernel reduction). -/
def strLower (s : String) : String := String.mk (s.toList.map Char.toLower)

/-- `"recorder" in type_key.lower()` from `attach_parameters`. -/
def containsRecorder (s : String) : Bool :=
  hasSub "recorder".toList (strLower s).toList

/-- `attr.lower() in ("name", "type")`: the reserved attribute names that
`attach_parameters` never treats as parameter references. -/
def excludedAttr (a : String) : Bool :=
  strLower a = "name" || strLower a = "type"

/-- Modelled from the spec: `pywrparser.utils.canonical_name` is not among
the sources; per the spec's wire convention the canonical name of
attribute `attr` of node `node` is `"__<node>__:<attr>"`. -/
def canonical_name (node attr : String) : String :=
  "__" ++ node ++ "__:" ++ attr

/-- Splits a char list at the first occurrence of the separator `__:`,
returning the part before and the part after it. -/
def splitSep : List Char → Option (List Char × List Char)
  | [] => none
  | c :: cs =>
      if c = '_' ∧ cs.take 2 = ['_', ':']
      then some ([], cs.drop 2)
      else (splitSep cs).map (fun pq => (c :: pq.1, pq.2))

/-- Modelled from the spec: `pywrparser.utils.parse_reference_key` is not
among the sources; per the spec it parses the reference-key format
`"__<nodename>__:<attrname>"`, and a name not in that format is a
parse failure (`ValueError` in the code, `none` here). -/
def parse_reference_key (s : String) : Option (String × String) :=
  if s.toList.take 2 = ['_', '_'] then
    match splitSep (s.toList.drop 2) with
    | some (p, q) => some (String.mk p, String.mk q)
    | none => none
  else none

/-- Modelled from the spec: the node type is not among the sources; per
the spec a node has a unique name and a mapping from attribute names to
values (its `data` dict, with `attrs` its keys, as for `PywrParameter`). -/
structure PywrNode where
  name : String
  data : List (String × PValue)

/-- The network object: its component registries, node store and edge
list, as assigned in `PywrNetwork.__init__`.  Edges are kept as the raw
lists of node names the spec describes (ordered tuples of two or more
node names); auxiliary components are kept abstractly as their data. -/
structure PywrNetwork where
  metadata : List (String × PValue)
  timestepper : List (String × PValue)
  scenarios : List (List (String × PValue))
  tables : List (String × List (String × PValue))
  nodes : List PywrNode
  edges : List (List String)
  parameters : List (String × PValue)
  recorders : List (String × PValue)

/-- The body of the attribute loop of `attach_parameters` for a single
attribute `a` of node `nodeName` holding value `v`, acting on the global
parameter registry `R`.  Returns the updated registry and attribute
value, or the raised error. -/
def attachValue (R : List (String × PValue)) (nodeName a : String)
    (v : PValue) : Except String (List (String × PValue) × PValue) :=
  if excludedAttr a then .ok (R, v)
  else match v with
  | .pstr s =>
      match alookup R s with
      | none => .ok (R, .pstr s)
      | some p => if truthy p then .ok (aerase R s, p) else .ok (R, .pstr s)
  | .pdict d =>
      match alookup d "type" with
      | none => .ok (R, .pdict d)
      | some tv =>
          if truthy tv then
            match tv with
            | .pstr t =>
                if containsRecorder t then .ok (R, .pdict d)
                else if (alookup R (canonical_name nodeName a)).isSome then
                  .error "inline dups global param"
                else .ok (R, .pparam (canonical_name nodeName a) d)
            | _ => .error "AttributeError"
          else .ok (R, .pdict d)
  | w => .ok (R, w)

/-- The attribute loop of `attach_parameters` over one node's data dict,
threading the registry left to right in iteration order. -/
def attachData (nodeName : String) :
    List (String × PValue) → List (String × PValue) →
    Except String (List (String × PValue) × List (String × PValue))
  | R, [] => .ok (R, [])
  | R, (a, v) :: rest =>
      match attachValue R nodeName a v with
      | .error e => .error e
      | .ok (R₁, v₁) =>
          match attachData nodeName R₁ rest with
          | .error e => .error e
          | .ok (R₂, rest₁) => .ok (R₂, (a, v₁) :: rest₁)

/-- The node loop of `attach_parameters`. -/
def attachNodes :
    List (String × PValue) → List PywrNode →
    Except String (List (String × PValue) × List PywrNode)
  | R, [] => .ok (R, [])
  | R, n :: ns =>
      match attachData n.name R n.data with
      | .error e => .error e
      | .ok (R₁, d₁) =>
          match attachNodes R₁ ns with
          | .error e => .error e
          | .ok (R₂, ns₁) => .ok (R₂, ⟨n.name, d₁⟩ :: ns₁)

/-- `PywrNetwork.attach_parameters`: global parameter references held as
string attribute values are replaced by the registry's parameter objects
(removing them from the registry), and inline dict parameter definitions
are promoted to parameter objects named canonically. -/
def attach_parameters (net : PywrNetwork) : Except String PywrNetwork :=
  match attachNodes net.parameters net.nodes with
  | .error e => .error e
  | .ok (R', ns') => .ok { net with parameters := R', nodes := ns' }

/-- The body of the attribute loop of `detach_parameters`: an attribute
holding a `PywrParameter` is moved back into the registry keyed by its
name and the attribute value becomes that name, with a `ValueError` when
the name is already a registry key. -/
def detachValue (R : List (String × PValue)) (v : PValue) :
    Except String (List (String × PValue) × PValue) :=
  match v with
  | .pparam nm d =>
      if (alookup R nm).isSome then
        .error "Attr param name duplicates global param name"
      else .ok (R ++ [(nm, .pparam nm d)], .pstr nm)
  | w => .ok (R, w)

/-- The attribute loop of `detach_parameters` over one node's data. -/
def detachData :
    List (String × PValue) → List (String × PValue) →
    Except String (List (String × PValue) × List (String × PValue))
  | R, [] => .ok (R, [])
  | R, (a, v) :: rest =>
      match detachValue R v with
      | .error e => .error e
      | .ok (R₁, v₁) =>
          match detachData R₁ rest with
          | .error e => .error e
          | .ok (R₂, rest₁) => .ok (R₂, (a, v₁) :: rest₁)

/-- The node loop of `detach_parameters`. -/
def detachNodes :
    List (String × PValue) → List PywrNode →
    Except String (List (String × PValue) × List PywrNode)
  | R, [] => .ok (R, [])
  | R, n :: ns =>
      match detachData R n.data with
      | .error e => .error e
      | .ok (R₁, d₁) =>
          match detachNodes R₁ ns with
          | .error e => .error e
          | .ok (R₂, ns₁) => .ok (R₂, ⟨n.name, d₁⟩ :: ns₁)

/-- `PywrNetwork.detach_parameters`. -/
def detach_parameters (net : PywrNetwork) : Except String PywrNetwork :=
  match detachNodes net.parameters net.nodes with
  | .error e => .error e
  | .ok (R', ns') => .ok { net with parameters := R', nodes := ns' }

/-- `node.attrs` membership test used by `__add_component_references`
(`attr in node.attrs`). -/
def nodeHasAttr (n : PywrNode) (a : String) : Bool :=
  (alookup n.data a).isSome

/-- `self.nodes[node_name]` lookup (`node_name in self.nodes` is its
success). -/
def findNode (nodes : List PywrNode) (nn : String) : Option PywrNode :=
  nodes.find? (fun n => n.name = nn)

/-- `node.data[attr] = comp_name` for the node(s) named `nn`, guarded by
the `attr in node.attrs` skip of `__add_component_references`. -/
def setAttr (nodes : List PywrNode) (nn a k : String) : List PywrNode :=
  nodes.map (fun n =>
    if n.name = nn then
      if nodeHasAttr n a then n else ⟨n.name, n.data ++ [(a, .pstr k)]⟩
    else n)

/-- The component-name loop of `__add_component_references`: for each
registry key in the canonical reference format whose node exists and
lacks the attribute, set that node's attribute to the literal key
string; all other keys are skipped. -/
def addRefsKeys : List PywrNode → List String → List PywrNode
  | nodes, [] => nodes
  | nodes, k :: ks =>
      match parse_reference_key k with
      | none => addRefsKeys nodes ks
      | some (nn, a) =>
          if (findNode nodes nn).isSome then
            addRefsKeys (setAttr nodes nn a k) ks
          else addRefsKeys nodes ks

/-- `PywrNetwork.add_parameter_references`, the partial application of
`__add_component_references` to the parameter registry. -/
def add_parameter_references (net : PywrNetwork) : PywrNetwork :=
  { net with nodes := addRefsKeys net.nodes (akeys net.parameters) }

/-- A serialized JSON-shaped value produced by `as_dict`.  Serialization
of the sub-objects (their own `as_dict`) is kept abstract as `jraw`; the
claim about `as_dict` concerns only the top-level keys and the sizes of
the top-level collections. -/
inductive JValue where
  | jraw : PValue → JValue
  | jobj : List (String × JValue) → JValue
  | jarr : List JValue → JValue
  | jedge : List String → JValue

/-- `PywrNetwork.as_dict`: `metadata`, `timestepper`, `nodes` and `edges`
always; `parameters`, `recorders`, `scenarios` and `tables` only when
the corresponding collection is non-empty (`len(...) > 0`). -/
def as_dict (net : PywrNetwork) : List (String × JValue) :=
  [("metadata", .jraw (.pdict net.metadata)),
   ("timestepper", .jraw (.pdict net.timestepper)),
   ("nodes", .jarr (net.nodes.map (fun nd => .jraw (.pdict nd.data)))),
   ("edges", .jarr (net.edges.map (fun e => .jedge e)))]
  ++ (if net.parameters.length > 0 then
        [("parameters", .jobj (net.parameters.map (fun kv => (kv.1, .jraw kv.2))))]
      else [])
  ++ (if net.recorders.length > 0 then
        [("recorders", .jobj (net.recorders.map (fun kv => (kv.1, .jraw kv.2))))]
      else [])
  ++ (if net.scenarios.length > 0 then
        [("scenarios", .jarr (net.scenarios.map (fun s => .jraw (.pdict s))))]
      else [])
  ++ (if net.tables.length > 0 then
        [("tables", .jobj (net.tables.map (fun kv => (kv.1, .jraw (.pdict kv.2)))))]
      else [])

/-- The tuple destructuring `(n1, n2) for (n1, n2) in self.edges` of the
`duplicate_edges` generator: an edge that is not exactly two node names
raises `ValueError` at unpacking. -/
def toPairs : List (List String) → Except String (List (String × String))
  | [] => .ok []
  | [n1, n2] :: rest => (toPairs rest).map (fun ps => (n1, n2) :: ps)
  | _ :: _ => .error "ValueError: unpacking edge tuple"

/-- Occurrence count of one pair, as tallied by `Counter`. -/
def countPair (p : String × String) : List (String × String) → Nat
  | [] => 0
  | q :: rest => (if q = p then 1 else 0) + countPair p rest

/-- The distinct pairs in first-occurrence order: the key order of a
`Counter` built from the generator. -/
def dedupKeys : List (String × String) → List (String × String)
  | [] => []
  | p :: rest => p :: (dedupKeys rest).filter (fun q => q ≠ p)

/-- `PywrNetwork.duplicate_edges`: the counts of the edge tuples that
occur more than once in the edge list. -/
def duplicate_edges (edges : List (List String)) :
    Except String (List ((String × String) × Nat)) :=
  match toPairs edges with
  | .error e => .error e
  | .ok ps =>
      .ok (((dedupKeys ps).map (fun p => (p, countPair p ps))).filter
            (fun pc => pc.2 > 1))

/-- Modelled from the spec: the external front end `PywrJSONParser` is
not among the sources.  Per the spec and the handling in `from_file`,
constructing it from document text can raise `PywrParserException`
(`ctorExc`), and a parsed document carries a mapping from component
category to error lists plus a warning list. -/
structure ParserModel where
  ctorExc : Option String
  perrors : List (String × List String)
  pwarnings : List String

/-- Modelled from the spec: `parser.parse(raise_on_error, raise_on_warning,
...)` raises the collected errors (resp. warnings) exactly when the
corresponding flag is set, and otherwise only records them. -/
def runParse (pm : ParserModel) (raiseErr raiseWarn : Bool) : Option String :=
  if raiseErr && !pm.perrors.isEmpty then some "parser errors raised"
  else if raiseWarn && !pm.pwarnings.isEmpty then some "parser warnings raised"
  else none

/-- The common tail of `from_file` and `from_json` after the parser has
been constructed: run `parse` with the flags, then return the three-way
result `(network_or_none, errors_or_none, warnings)`. -/
def parseAndBuild (pm : ParserModel) (raiseErr raiseWarn : Bool) :
    Except String (Option ParserModel × Option (List (String × List String)) ×
                   Option (List String)) :=
  match runParse pm raiseErr raiseWarn with
  | some e => .error e
  | none =>
      let retw := if !pm.pwarnings.isEmpty then some pm.pwarnings else none
      if !pm.perrors.isEmpty then .ok (none, some pm.perrors, retw)
      else .ok (some pm, none, some pm.pwarnings)

/-- The document source given to `from_file`: either the file is
unreadable (`OSError` with a message) or it yields text whose parse
behaves as `ParserModel`. -/
inductive FileSource where
  | unreadable : String → FileSource
  | readable : ParserModel → FileSource

/-- `PywrNetwork.from_file`: wraps the file read and the parser
construction, honouring `raise_on_parser_error` in both, then delegates
to the common tail. -/
def from_file (src : FileSource) (raiseErr raiseWarn : Bool) :
    Except String (Option ParserModel × Option (List (String × List String)) ×
                   Option (List String)) :=
  match src with
  | .unreadable msg =>
      if raiseErr then .error ("Unable to read input file: " ++ msg)
      else .ok (none, some [("network", ["Unable to read input file: " ++ msg])], none)
  | .readable pm =>
      match pm.ctorExc with
      | some e => if raiseErr then .error e
                  else .ok (none, some [("network", [e])], none)
      | none => parseAndBuild pm raiseErr raiseWarn

/-- `PywrNetwork.from_json`: constructs the parser with no guard around
the constructor (unlike `from_file`), then delegates to the common
tail. -/
def from_json (pm : ParserModel) (raiseErr raiseWarn : Bool) :
    Except String (Option ParserModel × Option (List (String × List String)) ×
                   Option (List String)) :=
  match pm.ctorExc with
  | some e => .error e
  | none => parseAndBuild pm raiseErr raiseWarn

/-- Registry well-formedness: every entry of the global parameter
registry is a `PywrParameter` object keyed by its own name, as the
parser constructs it. -/
def regWF : List (String × PValue) → Bool
  | [] => true
  | (k, .pparam nm _) :: rest => (nm = k) && regWF rest
  | _ :: _ => false

/-- Key uniqueness of an association list, as holds for any list coming
from a Python dict. -/
def keysNodup {α : Type} : List (String × α) → Bool
  | [] => true
  | (k, _) :: rest => (alookup rest k).isNone && keysNodup rest

/-- Node-name uniqueness, as holds for the node store (a dict keyed by
name). -/
def namesNodup : List PywrNode → Bool
  | [] => true
  | n :: ns => (findNode ns n.name).isNone && namesNodup ns

/-- An attribute value the attach/detach pair carries through unchanged:
not an attached parameter object, and not a dict that `attach_parameters`
would promote (its `type` is absent, falsy, or a recorder type). -/
def dictSkipped (d : List (String × PValue)) : Bool :=
  match alookup d "type" with
  | none => true
  | some (.pstr t) => t.isEmpty || containsRecorder t
  | some tv => !truthy tv

/-- Round-trippability of a single attribute for claim C1: strings are
fine (they either stay put or are attached and later detached back),
dicts must be ones the attach phase skips, parameter objects are not
allowed (detach would move them), everything else is inert. -/
def roundtrippable (a : String) (v : PValue) : Bool :=
  match v with
  | .pstr _ => true
  | .pparam _ _ => false
  | .pdict d => excludedAttr a || dictSkipped d
  | _ => true

/-- All attributes of all nodes round-trippable. -/
def dataRoundtrippable : List (String × PValue) → Bool
  | [] => true
  | (a, v) :: rest => roundtrippable a v && dataRoundtrippable rest

/-- All nodes of the network round-trippable. -/
def nodesRoundtrippable : List PywrNode → Bool
  | [] => true
  | n :: ns => dataRoundtrippable n.data && nodesRoundtrippable ns

/-- `eraseKeys R ks` removes the listed keys from the registry in
order. -/
def eraseKeys : List (String × PValue) → List String → List (String × PValue)
  | R, [] => R
  | R, k :: ks => eraseKeys (aerase R k) ks

/-- No non-excluded attribute of the data list holds the string `s`
(used to say a position is the first holding a given reference). -/
def noStrData (s : String) : List (String × PValue) → Bool
  | [] => true
  | (a, .pstr t) :: rest => (excludedAttr a || (t != s)) && noStrData s rest
  | _ :: rest => noStrData s rest

/-- No non-excluded attribute of any of the nodes holds the string `s`. -/
def noStrNodes (s : String) : List PywrNode → Bool
  | [] => true
  | n :: ns => noStrData s n.data && noStrNodes s ns

/-- Pointwise relation between an attribute entry before and after
`attach_parameters`: the key is kept, and an entry holding the plain
string `s` (for a non-excluded attribute) still holds it afterwards. -/
def keepsStr (s : String) (old new : String × PValue) : Prop :=
  new.1 = old.1 ∧ (old.2 = .pstr s → excludedAttr old.1 = false → new.2 = .pstr s)

/-- `keepsStr` lifted to a whole node. -/
def keepsStrNode (s : String) (old new : PywrNode) : Prop :=
  new.name = old.name ∧ List.Forall₂ (keepsStr s) old.data new.data

/-- Pointwise relation between an attribute entry before and after
`attach_parameters`: the key is kept, and an entry whose attribute name
is reserved (`name`/`type`, case-insensitively) is wholly unchanged. -/
def frozenExcluded (old new : String × PValue) : Prop :=
  new.1 = old.1 ∧ (excludedAttr old.1 = true → new.2 = old.2)

/-- `frozenExcluded` lifted to a whole node. -/
def frozenExcludedNode (old new : PywrNode) : Prop :=
  new.name = old.name ∧ List.Forall₂ frozenExcluded old.data new.data

/-- Pointwise relation between a node before and after
`add_parameter_references`: the name is kept and every attribute that
was present keeps its value (the routine only adds attributes). -/
def refsMono (old new : PywrNode) : Prop :=
  new.name = old.name ∧
  ∀ b v, alookup old.data b = some v → alookup new.data b = some v

/- ## Association-list lemmas -/

theorem alookup_append {α : Type} (A B : List (String × α)) (k : String) :
    alookup (A ++ B) k =
      match alookup A k with
      | some v => some v
      | none => alookup B k := by
  induction A with
  | nil => simp [alookup]
  | cons hd tl ih =>
      obtain ⟨k', v'⟩ := hd
      by_cases h : k' = k <;> simp [alookup, h, ih]

theorem aerase_lookup_ne {α : Type} (R : List (String × α)) (s k : String)
    (h : k ≠ s) : alookup (aerase R s) k = alookup R k := by
  induction R with
  | nil => simp [aerase]
  | cons hd tl ih =>
      obtain ⟨k', v'⟩ := hd
      by_cases hk : k' = s
      · have hne : k' ≠ k := by
          rw [hk]
          exact fun hh => h hh.symm
        simp [aerase, alookup, hk, hne, Ne.symm h]
      · by_cases hk2 : k' = k <;> simp [aerase, alookup, hk, hk2, ih, h]

theorem alookup_none_aerase {α : Type} (R : List (String × α)) (s k : String)
    (h : alookup R k = none) : alookup (aerase R s) k = none := by
  induction R with
  | nil => simp [aerase, alookup]
  | cons hd tl ih =>
      obtain ⟨k', v'⟩ := hd
      by_cases hk : k' = k
      · subst hk; simp [alookup] at h
      · simp [alookup, hk] at h
        by_cases hs : k' = s <;> simp [aerase, alookup, hs, hk, ih h, h]

theorem aerase_lookup_self {α : Type} (R : List (String × α)) (s : String)
    (h : keysNodup R = true) : alookup (aerase R s) s = none := by
  induction R with
  | nil => simp [aerase, alookup]
  | cons hd tl ih =>
      obtain ⟨k', v'⟩ := hd
      simp [keysNodup, Option.isNone_iff_eq_none] at h
      by_cases hk : k' = s
      · subst hk; simp [aerase, h.1]
      · simp [aerase, alookup, hk, ih h.2]

theorem keysNodup_aerase {α : Type} (R : List (String × α)) (s : String)
    (h : keysNodup R = true) : keysNodup (aerase R s) = true := by
  induction R with
  | nil => simp [aerase, keysNodup]
  | cons hd tl ih =>
      obtain ⟨k', v'⟩ := hd
      simp [keysNodup, Option.isNone_iff_eq_none] at h
      by_cases hk : k' = s
      · simp [aerase, hk, h.2]
      · simp [aerase, hk, keysNodup, Option.isNone_iff_eq_none,
          alookup_none_aerase tl s k' h.1, ih h.2]

theorem regWF_aerase (R : List (String × PValue)) (s : String)
    (h : regWF R = true) : regWF (aerase R s) = true := by
  induction R with
  | nil => simp [aerase, regWF]
  | cons hd tl ih =>
      obtain ⟨k', v'⟩ := hd
      cases v' with
      | pparam nm dp =>
          simp [regWF] at h
          by_cases hk : k' = s
          · simp [aerase, hk, h.2]
          · simp [aerase, hk, regWF, h.1, ih h.2]
      | pstr s' => simp [regWF] at h
      | pint n => simp [regWF] at h
      | pdict d => simp [regWF] at h
      | precorder nm dp => simp [regWF] at h

theorem regWF_lookup (R : List (String × PValue)) (s : String) (p : PValue)
    (hWF : regWF R = true) (h : alookup R s = some p) :
    ∃ dp, p = .pparam s dp := by
  induction R with
  | nil => simp [alookup] at h
  | cons hd tl ih =>
      obtain ⟨k', v'⟩ := hd
      cases v' with
      | pparam nm dp =>
          simp [regWF] at hWF
          by_cases hk : k' = s
          · subst hk
            simp [alookup] at h
            exact ⟨dp, by rw [← h, hWF.1]⟩
          · simp [alookup, hk] at h
            exact ih hWF.2 h
      | pstr s' => simp [regWF] at hWF
      | pint n => simp [regWF] at hWF
      | pdict d => simp [regWF] at hWF
      | precorder nm dp => simp [regWF] at hWF

theorem alookup_mem {α : Type} (l : List (String × α)) (k : String) (v : α)
    (h : alookup l k = some v) : (k, v) ∈ l := by
  induction l with
  | nil => simp [alookup] at h
  | cons hd tl ih =>
      obtain ⟨k', v'⟩ := hd
      by_cases hk : k' = k
      · subst hk
        simp [alookup] at h
        simp [h]
      · simp [alookup, hk] at h
        simp [ih h]

theorem mem_alookup {α : Type} (l : List (String × α)) (k : String) (v : α)
    (hN : keysNodup l = true) (h : (k, v) ∈ l) : alookup l k = some v := by
  induction l with
  | nil => simp at h
  | cons hd tl ih =>
      obtain ⟨k', v'⟩ := hd
      simp [keysNodup, Option.isNone_iff_eq_none] at hN
      rcases List.mem_cons.mp h with heq | hmem
      · rw [Prod.ext_iff] at heq
        obtain ⟨h1, h2⟩ := heq
        simp at h1 h2
        subst h1
        simp [alookup, h2]
      · by_cases hk : k' = k
        · subst hk
          have := ih hN.2 hmem
          rw [hN.1] at this
          exact absurd this (by simp)
        · simp [alookup, hk, ih hN.2 hmem]

theorem eraseKeys_lookup_notmem (R : List (String × PValue)) (ks : List String)
    (k : String) (h : k ∉ ks) :
    alookup (eraseKeys R ks) k = alookup R k := by
  induction ks generalizing R with
  | nil => simp [eraseKeys]
  | cons s rest ih =>
      simp at h
      simp [eraseKeys, ih _ h.2, aerase_lookup_ne _ _ _ (fun hh => h.1 hh)]

theorem alookup_none_eraseKeys (R : List (String × PValue)) (ks : List String)
    (k : String) (h : alookup R k = none) :
    alookup (eraseKeys R ks) k = none := by
  induction ks generalizing R with
  | nil => simpa [eraseKeys]
  | cons s rest ih => simp [eraseKeys, ih _ (alookup_none_aerase R s k h)]

theorem keysNodup_eraseKeys (R : List (String × PValue)) (ks : List String)
    (h : keysNodup R = true) : keysNodup (eraseKeys R ks) = true := by
  induction ks generalizing R with
  | nil => simpa [eraseKeys]
  | cons s rest ih => simp [eraseKeys, ih _ (keysNodup_aerase R s h)]

/- ## Reference-key format lemmas -/

theorem splitSep_eq (l p q : List Char) (h : splitSep l = some (p, q)) :
    l = p ++ '_' :: '_' :: ':' :: q := by
  induction l generalizing p q with
  | nil => simp [splitSep] at h
  | cons c cs ih =>
      by_cases hc : c = '_' ∧ cs.take 2 = ['_', ':']
      · simp only [splitSep, if_pos hc] at h
        obtain ⟨hc1, hc2⟩ := hc
        injection h with h'
        rw [Prod.mk.injEq] at h'
        obtain ⟨hp, hq⟩ := h'
        rw [← hp, ← hq, hc1, List.nil_append]
        have hcs := (List.take_append_drop 2 cs).symm
        rw [hc2] at hcs
        exact congrArg (List.cons '_') hcs
      · simp only [splitSep, if_neg hc, Option.map_eq_some'] at h
        obtain ⟨⟨p', q'⟩, hsplit, hpq⟩ := h
        rw [Prod.mk.injEq] at hpq
        obtain ⟨hp, hq⟩ := hpq
        rw [← hp, ← hq]
        simpa using congrArg (List.cons c) (ih p' q' hsplit)

theorem parse_reference_key_inj (k1 k2 : String) (r : String × String)
    (h1 : parse_reference_key k1 = some r)
    (h2 : parse_reference_key k2 = some r) : k1 = k2 := by
  obtain ⟨r1, r2⟩ := r
  unfold parse_reference_key at h1 h2
  by_cases c1 : k1.toList.take 2 = ['_', '_']
  · by_cases c2 : k2.toList.take 2 = ['_', '_']
    · rw [if_pos c1] at h1
      rw [if_pos c2] at h2
      rcases hs1 : splitSep (k1.toList.drop 2) with _ | ⟨p1, q1⟩
      · rw [hs1] at h1
        simp at h1
      rcases hs2 : splitSep (k2.toList.drop 2) with _ | ⟨p2, q2⟩
      · rw [hs2] at h2
        simp at h2
      rw [hs1] at h1
      rw [hs2] at h2
      simp only [Option.some.injEq, Prod.mk.injEq] at h1 h2
      have hp : p1 = p2 :=
        congrArg String.data (h1.1.trans h2.1.symm)
      have hq : q1 = q2 :=
        congrArg String.data (h1.2.trans h2.2.symm)
      have hdrop : k1.toList.drop 2 = k2.toList.drop 2 := by
        rw [splitSep_eq _ _ _ hs1, splitSep_eq _ _ _ hs2, hp, hq]
      have hfull : k1.toList = k2.toList := by
        have e1 := (List.take_append_drop 2 k1.toList).symm
        have e2 := (List.take_append_drop 2 k2.toList).symm
        rw [e1, e2, c1, c2, hdrop]
      obtain ⟨d1⟩ := k1
      obtain ⟨d2⟩ := k2
      exact congrArg String.mk (by simpa [String.toList] using hfull)
    · rw [if_neg c2] at h2
      exact absurd h2 (by simp)
  · rw [if_neg c1] at h1
    exact absurd h1 (by simp)

theorem eraseKeys_lookup_mem (R : List (String × PValue)) (ks : List String)
    (k : String) (hN : keysNodup R = true) (h : k ∈ ks) :
    alookup (eraseKeys R ks) k = none := by
  induction ks generalizing R with
  | nil => simp at h
  | cons s rest ih =>
      rcases List.mem_cons.mp h with heq | hmem
      · subst heq
        simp only [eraseKeys]
        exact alookup_none_eraseKeys _ _ _ (aerase_lookup_self _ _ hN)
      · simp only [eraseKeys]
        exact ih _ (keysNodup_aerase R s hN) hmem

/- ## Step lemmas for the attach phase -/

theorem attachValue_excluded (R : List (String × PValue)) (n a : String)
    (v : PValue) (he : excludedAttr a = true) :
    attachValue R n a v = .ok (R, v) := by
  simp [attachValue, he]

theorem attachValue_str_none (R : List (String × PValue)) (n a s : String)
    (he : excludedAttr a = false) (hl : alookup R s = none) :
    attachValue R n a (.pstr s) = .ok (R, .pstr s) := by
  simp [attachValue, he, hl]

theorem attachValue_str_some (R : List (String × PValue)) (n a s : String)
    (p : PValue) (he : excludedAttr a = false) (hl : alookup R s = some p)
    (ht : truthy p = true) :
    attachValue R n a (.pstr s) = .ok (aerase R s, p) := by
  simp [attachValue, he, hl, ht]

theorem attachValue_dict_skip (R : List (String × PValue)) (n a : String)
    (d : List (String × PValue)) (hs : dictSkipped d = true) :
    attachValue R n a (.pdict d) = .ok (R, .pdict d) := by
  by_cases he : excludedAttr a = true
  · simp [attachValue, he]
  · rcases hl : alookup d "type" with _ | tv
    · simp [attachValue, he, hl]
    · simp only [dictSkipped, hl] at hs
      cases tv with
      | pstr t =>
          by_cases hte : t.isEmpty = true
          · have : truthy (PValue.pstr t) = false := by simp [truthy, hte]
            simp [attachValue, he, hl, this]
          · simp [hte] at hs
            have : truthy (PValue.pstr t) = true := by simp [truthy, hte]
            simp [attachValue, he, hl, this, hs]
      | pint m =>
          have ht : truthy (PValue.pint m) = false := by simpa using hs
          simp [attachValue, he, hl, ht]
      | pdict dd =>
          have ht : truthy (PValue.pdict dd) = false := by simpa using hs
          simp [attachValue, he, hl, ht]
      | pparam nm dp => simp [truthy] at hs
      | precorder nm dp => simp [truthy] at hs

theorem attachValue_reg_shape (R : List (String × PValue)) (n a : String)
    (v : PValue) (R' : List (String × PValue)) (v' : PValue)
    (h : attachValue R n a v = .ok (R', v')) :
    R' = R ∨
    ∃ s p, v = .pstr s ∧ excludedAttr a = false ∧ alookup R s = some p ∧
      truthy p = true ∧ R' = aerase R s ∧ v' = p := by
  by_cases he : excludedAttr a = true
  · rw [attachValue_excluded R n a v he] at h
    simp at h
    exact Or.inl h.1.symm
  · simp only [Bool.not_eq_true] at he
    cases v with
    | pstr s =>
        rcases hl : alookup R s with _ | p
        · rw [attachValue_str_none R n a s he hl] at h
          simp at h
          exact Or.inl h.1.symm
        · by_cases ht : truthy p = true
          · rw [attachValue_str_some R n a s p he hl ht] at h
            simp at h
            exact Or.inr ⟨s, p, rfl, he, hl, ht, h.1.symm, h.2.symm⟩
          · simp only [Bool.not_eq_true] at ht
            simp [attachValue, he, hl, ht] at h
            exact Or.inl h.1.symm
    | pint m =>
        simp [attachValue, he] at h
        exact Or.inl h.1.symm
    | pdict d =>
        rcases hl : alookup d "type" with _ | tv
        · simp [attachValue, he, hl] at h
          exact Or.inl h.1.symm
        · by_cases ht : truthy tv = true
          · cases tv with
            | pstr t =>
                by_cases hr : containsRecorder t = true
                · simp [attachValue, he, hl, ht, hr] at h
                  exact Or.inl h.1.symm
                · by_cases hcn : (alookup R (canonical_name n a)).isSome = true
                  · simp [attachValue, he, hl, ht, hr, hcn] at h
                  · simp [attachValue, he, hl, ht, hr, hcn] at h
                    exact Or.inl h.1.symm
            | pint m => simp [attachValue, he, hl, ht] at h
            | pdict dd => simp [attachValue, he, hl, ht] at h
            | pparam nm dp => simp [attachValue, he, hl, ht] at h
            | precorder nm dp => simp [attachValue, he, hl, ht] at h
          · simp only [Bool.not_eq_true] at ht
            simp [attachValue, he, hl, ht] at h
            exact Or.inl h.1.symm
    | pparam nm dp =>
        simp [attachValue, he] at h
        exact Or.inl h.1.symm
    | precorder nm dp =>
        simp [attachValue, he] at h
        exact Or.inl h.1.symm

theorem attachValue_reg_none (R : List (String × PValue)) (n a : String)
    (v : PValue) (R' : List (String × PValue)) (v' : PValue) (k : String)
    (h : attachValue R n a v = .ok (R', v')) (hk : alookup R k = none) :
    alookup R' k = none := by
  rcases attachValue_reg_shape R n a v R' v' h with hR | ⟨s, p, _, _, _, _, hR, _⟩
  · rw [hR]; exact hk
  · rw [hR]; exact alookup_none_aerase R s k hk

theorem attachValue_reg_ne (R : List (String × PValue)) (n a : String)
    (v : PValue) (R' : List (String × PValue)) (v' : PValue) (k : String)
    (h : attachValue R n a v = .ok (R', v')) (hk : v ≠ .pstr k) :
    alookup R' k = alookup R k := by
  rcases attachValue_reg_shape R n a v R' v' h with hR | ⟨s, p, hv, _, _, _, hR, _⟩
  · rw [hR]
  · have hsk : k ≠ s := by
      intro hh
      rw [hh] at hk
      exact hk hv
    rw [hR]
    exact aerase_lookup_ne R s k hsk

/- ## Data-level lemmas for the attach phase -/

theorem attachData_append (n : String) (d₁ d₂ R : List (String × PValue)) :
    attachData n R (d₁ ++ d₂) =
      match attachData n R d₁ with
      | .error e => .error e
      | .ok (Q, r₁) =>
          match attachData n Q d₂ with
          | .error e => .error e
          | .ok (R₂, r₂) => .ok (R₂, r₁ ++ r₂) := by
  induction d₁ generalizing R with
  | nil =>
      simp only [List.nil_append, attachData]
      rcases attachData n R d₂ with e | ⟨R₂, r₂⟩ <;> simp
  | cons hd tl ih =>
      obtain ⟨a, v⟩ := hd
      simp only [List.cons_append, attachData]
      rcases h0 : attachValue R n a v with e | ⟨Ra, va⟩
      · simp
      · dsimp only
        rw [List.append_eq, ih Ra]
        rcases h1 : attachData n Ra tl with e | ⟨Q, r₁⟩
        · simp [h1]
        · simp only [h1]
          rcases h2 : attachData n Q d₂ with e | ⟨R₂, r₂⟩ <;> simp [h2]

theorem attachData_keys (n : String) (R d R₁ d₁ : List (String × PValue))
    (h : attachData n R d = .ok (R₁, d₁)) :
    d₁.map Prod.fst = d.map Prod.fst := by
  induction d generalizing R R₁ d₁ with
  | nil =>
      simp [attachData] at h
      rw [← h.2]
  | cons hd tl ih =>
      obtain ⟨a, v⟩ := hd
      simp only [attachData] at h
      rcases h0 : attachValue R n a v with e | ⟨Ra, va⟩ <;> rw [h0] at h
      · simp at h
      · dsimp only at h
        rcases h1 : attachData n Ra tl with e | ⟨Rb, rb⟩ <;> rw [h1] at h
        · simp at h
        · simp at h
          rw [← h.2]
          simp [ih _ _ _ h1]

theorem attachData_reg_none (n k : String) (R d R₁ d₁ : List (String × PValue))
    (h : attachData n R d = .ok (R₁, d₁)) (hk : alookup R k = none) :
    alookup R₁ k = none := by
  induction d generalizing R R₁ d₁ with
  | nil =>
      simp [attachData] at h
      rw [← h.1]
      exact hk
  | cons hd tl ih =>
      obtain ⟨a, v⟩ := hd
      simp only [attachData] at h
      rcases h0 : attachValue R n a v with e | ⟨Ra, va⟩ <;> rw [h0] at h
      · simp at h
      · dsimp only at h
        rcases h1 : attachData n Ra tl with e | ⟨Rb, rb⟩ <;> rw [h1] at h
        · simp at h
        · simp at h
          rw [← h.1]
          exact ih _ _ _ h1 (attachValue_reg_none R n a v Ra va k h0 hk)

theorem attachData_reg_nodup (n : String) (R d R₁ d₁ : List (String × PValue))
    (h : attachData n R d = .ok (R₁, d₁)) (hN : keysNodup R = true) :
    keysNodup R₁ = true := by
  induction d generalizing R R₁ d₁ with
  | nil =>
      simp [attachData] at h
      rw [← h.1]
      exact hN
  | cons hd tl ih =>
      obtain ⟨a, v⟩ := hd
      simp only [attachData] at h
      rcases h0 : attachValue R n a v with e | ⟨Ra, va⟩ <;> rw [h0] at h
      · simp at h
      · dsimp only at h
        rcases h1 : attachData n Ra tl with e | ⟨Rb, rb⟩ <;> rw [h1] at h
        · simp at h
        · simp at h
          rw [← h.1]
          have hRa : keysNodup Ra = true := by
            rcases attachValue_reg_shape R n a v Ra va h0 with hR | ⟨s, p, _, _, _, _, hR, _⟩
            · rw [hR]; exact hN
            · rw [hR]; exact keysNodup_aerase R s hN
          exact ih _ _ _ h1 hRa

theorem attachData_regWF (n : String) (R d R₁ d₁ : List (String × PValue))
    (h : attachData n R d = .ok (R₁, d₁)) (hWF : regWF R = true) :
    regWF R₁ = true := by
  induction d generalizing R R₁ d₁ with
  | nil =>
      simp [attachData] at h
      rw [← h.1]
      exact hWF
  | cons hd tl ih =>
      obtain ⟨a, v⟩ := hd
      simp only [attachData] at h
      rcases h0 : attachValue R n a v with e | ⟨Ra, va⟩ <;> rw [h0] at h
      · simp at h
      · dsimp only at h
        rcases h1 : attachData n Ra tl with e | ⟨Rb, rb⟩ <;> rw [h1] at h
        · simp at h
        · simp at h
          rw [← h.1]
          have hRa : regWF Ra = true := by
            rcases attachValue_reg_shape R n a v Ra va h0 with hR | ⟨s, p, _, _, _, _, hR, _⟩
            · rw [hR]; exact hWF
            · rw [hR]; exact regWF_aerase R s hWF
          exact ih _ _ _ h1 hRa

theorem attachData_keepsStr (n s : String) (R d R₁ d₁ : List (String × PValue))
    (h : attachData n R d = .ok (R₁, d₁)) (hk : alookup R s = none) :
    List.Forall₂ (keepsStr s) d d₁ ∧ alookup R₁ s = none := by
  induction d generalizing R R₁ d₁ with
  | nil =>
      simp [attachData] at h
      obtain ⟨hA, hB⟩ := h
      subst hA
      subst hB
      exact ⟨List.Forall₂.nil, hk⟩
  | cons hd tl ih =>
      obtain ⟨a, v⟩ := hd
      simp only [attachData] at h
      rcases h0 : attachValue R n a v with e | ⟨Ra, va⟩ <;> rw [h0] at h
      · simp at h
      · dsimp only at h
        rcases h1 : attachData n Ra tl with e | ⟨Rb, rb⟩ <;> rw [h1] at h
        · simp at h
        · simp at h
          have hRa : alookup Ra s = none :=
            attachValue_reg_none R n a v Ra va s h0 hk
          obtain ⟨ihF, ihN⟩ := ih _ _ _ h1 hRa
          rw [← h.1, ← h.2]
          refine ⟨List.Forall₂.cons ⟨rfl, ?_⟩ ihF, ihN⟩
          intro hv hexcl
          dsimp only at hv hexcl
          rw [hv] at h0
          rw [attachValue_str_none R n a s hexcl hk] at h0
          simp at h0
          exact h0.2.symm

theorem attachData_noStr_reg (n s : String) (R d R₁ d₁ : List (String × PValue))
    (h : attachData n R d = .ok (R₁, d₁)) (hns : noStrData s d = true) :
    alookup R₁ s = alookup R s := by
  induction d generalizing R R₁ d₁ with
  | nil =>
      simp [attachData] at h
      rw [← h.1]
  | cons hd tl ih =>
      obtain ⟨a, v⟩ := hd
      simp only [attachData] at h
      rcases h0 : attachValue R n a v with e | ⟨Ra, va⟩ <;> rw [h0] at h
      · simp at h
      · dsimp only at h
        rcases h1 : attachData n Ra tl with e | ⟨Rb, rb⟩ <;> rw [h1] at h
        · simp at h
        · simp at h
          rw [← h.1]
          have step : alookup Ra s = alookup R s ∧ noStrData s tl = true := by
            cases v with
            | pstr t =>
                simp only [noStrData, Bool.and_eq_true] at hns
                rcases Bool.or_eq_true_iff.mp hns.1 with hexc | hne
                · rw [attachValue_excluded R n a _ hexc] at h0
                  simp at h0
                  rw [← h0.1]
                  exact ⟨rfl, hns.2⟩
                · have : (PValue.pstr t) ≠ (PValue.pstr s) := by
                    intro hh
                    injection hh with hh'
                    rw [hh'] at hne
                    simp at hne
                  exact ⟨attachValue_reg_ne R n a _ Ra va s h0 this, hns.2⟩
            | pint m =>
                exact ⟨attachValue_reg_ne R n a _ Ra va s h0 (by intro hh; exact PValue.noConfusion hh),
                  by simpa [noStrData] using hns⟩
            | pdict dd =>
                exact ⟨attachValue_reg_ne R n a _ Ra va s h0 (by intro hh; exact PValue.noConfusion hh),
                  by simpa [noStrData] using hns⟩
            | pparam nm dp =>
                exact ⟨attachValue_reg_ne R n a _ Ra va s h0 (by intro hh; exact PValue.noConfusion hh),
                  by simpa [noStrData] using hns⟩
            | precorder nm dp =>
                exact ⟨attachValue_reg_ne R n a _ Ra va s h0 (by intro hh; exact PValue.noConfusion hh),
                  by simpa [noStrData] using hns⟩
          rw [ih _ _ _ h1 step.2]
          exact step.1

theorem attachData_frozenExcluded (n : String) (R d R₁ d₁ : List (String × PValue))
    (h : attachData n R d = .ok (R₁, d₁)) :
    List.Forall₂ frozenExcluded d d₁ := by
  induction d generalizing R R₁ d₁ with
  | nil =>
      simp [attachData] at h
      obtain ⟨hA, hB⟩ := h
      subst hA
      subst hB
      exact List.Forall₂.nil
  | cons hd tl ih =>
      obtain ⟨a, v⟩ := hd
      simp only [attachData] at h
      rcases h0 : attachValue R n a v with e | ⟨Ra, va⟩ <;> rw [h0] at h
      · simp at h
      · dsimp only at h
        rcases h1 : attachData n Ra tl with e | ⟨Rb, rb⟩ <;> rw [h1] at h
        · simp at h
        · simp at h
          rw [← h.2]
          refine List.Forall₂.cons ⟨rfl, ?_⟩ (ih _ _ _ h1)
          intro hexcl
          rw [attachValue_excluded R n a v hexcl] at h0
          simp at h0
          exact h0.2.symm

/- ## Node-level lemmas for the attach phase -/

theorem attachNodes_append (ns₁ ns₂ : List PywrNode)
    (R : List (String × PValue)) :
    attachNodes R (ns₁ ++ ns₂) =
      match attachNodes R ns₁ with
      | .error e => .error e
      | .ok (Q, ms₁) =>
          match attachNodes Q ns₂ with
          | .error e => .error e
          | .ok (R₂, ms₂) => .ok (R₂, ms₁ ++ ms₂) := by
  induction ns₁ generalizing R with
  | nil =>
      simp only [List.nil_append, attachNodes]
      rcases attachNodes R ns₂ with e | ⟨R₂, ms₂⟩ <;> simp
  | cons nd tl ih =>
      simp only [List.cons_append, attachNodes]
      rcases h0 : attachData nd.name R nd.data with e | ⟨Ra, da⟩
      · simp
      · dsimp only
        rw [List.append_eq, ih Ra]
        rcases h1 : attachNodes Ra tl with e | ⟨Q, ms₁⟩
        · simp [h1]
        · simp only [h1]
          rcases h2 : attachNodes Q ns₂ with e | ⟨R₂, ms₂⟩ <;> simp [h2]

theorem attachNodes_names (R : List (String × PValue)) (ns : List PywrNode)
    (R₁ : List (String × PValue)) (ns₁ : List PywrNode)
    (h : attachNodes R ns = .ok (R₁, ns₁)) :
    ns₁.map PywrNode.name = ns.map PywrNode.name := by
  induction ns generalizing R R₁ ns₁ with
  | nil =>
      simp [attachNodes] at h
      rw [← h.2]
  | cons nd tl ih =>
      simp only [attachNodes] at h
      rcases h0 : attachData nd.name R nd.data with e | ⟨Ra, da⟩ <;> rw [h0] at h
      · simp at h
      · dsimp only at h
        rcases h1 : attachNodes Ra tl with e | ⟨Rb, msb⟩ <;> rw [h1] at h
        · simp at h
        · simp at h
          rw [← h.2]
          simp [ih _ _ _ h1]

theorem attachNodes_reg_none (k : String) (R : List (String × PValue))
    (ns : List PywrNode) (R₁ : List (String × PValue)) (ns₁ : List PywrNode)
    (h : attachNodes R ns = .ok (R₁, ns₁)) (hk : alookup R k = none) :
    alookup R₁ k = none := by
  induction ns generalizing R R₁ ns₁ with
  | nil =>
      simp [attachNodes] at h
      rw [← h.1]
      exact hk
  | cons nd tl ih =>
      simp only [attachNodes] at h
      rcases h0 : attachData nd.name R nd.data with e | ⟨Ra, da⟩ <;> rw [h0] at h
      · simp at h
      · dsimp only at h
        rcases h1 : attachNodes Ra tl with e | ⟨Rb, msb⟩ <;> rw [h1] at h
        · simp at h
        · simp at h
          rw [← h.1]
          exact ih _ _ _ h1 (attachData_reg_none nd.name k R nd.data Ra da h0 hk)

theorem attachNodes_reg_nodup (R : List (String × PValue))
    (ns : List PywrNode) (R₁ : List (String × PValue)) (ns₁ : List PywrNode)
    (h : attachNodes R ns = .ok (R₁, ns₁)) (hN : keysNodup R = true) :
    keysNodup R₁ = true := by
  induction ns generalizing R R₁ ns₁ with
  | nil =>
      simp [attachNodes] at h
      rw [← h.1]
      exact hN
  | cons nd tl ih =>
      simp only [attachNodes] at h
      rcases h0 : attachData nd.name R nd.data with e | ⟨Ra, da⟩ <;> rw [h0] at h
      · simp at h
      · dsimp only at h
        rcases h1 : attachNodes Ra tl with e | ⟨Rb, msb⟩ <;> rw [h1] at h
        · simp at h
        · simp at h
          rw [← h.1]
          exact ih _ _ _ h1 (attachData_reg_nodup nd.name R nd.data Ra da h0 hN)

theorem attachNodes_regWF (R : List (String × PValue))
    (ns : List PywrNode) (R₁ : List (String × PValue)) (ns₁ : List PywrNode)
    (h : attachNodes R ns = .ok (R₁, ns₁)) (hWF : regWF R = true) :
    regWF R₁ = true := by
  induction ns generalizing R R₁ ns₁ with
  | nil =>
      simp [attachNodes] at h
      rw [← h.1]
      exact hWF
  | cons nd tl ih =>
      simp only [attachNodes] at h
      rcases h0 : attachData nd.name R nd.data with e | ⟨Ra, da⟩ <;> rw [h0] at h
      · simp at h
      · dsimp only at h
        rcases h1 : attachNodes Ra tl with e | ⟨Rb, msb⟩ <;> rw [h1] at h
        · simp at h
        · simp at h
          rw [← h.1]
          exact ih _ _ _ h1 (attachData_regWF nd.name R nd.data Ra da h0 hWF)

theorem attachNodes_keepsStr (s : String) (R : List (String × PValue))
    (ns : List PywrNode) (R₁ : List (String × PValue)) (ns₁ : List PywrNode)
    (h : attachNodes R ns = .ok (R₁, ns₁)) (hk : alookup R s = none) :
    List.Forall₂ (keepsStrNode s) ns ns₁ ∧ alookup R₁ s = none := by
  induction ns generalizing R R₁ ns₁ with
  | nil =>
      simp [attachNodes] at h
      obtain ⟨hA, hB⟩ := h
      subst hA
      subst hB
      exact ⟨List.Forall₂.nil, hk⟩
  | cons nd tl ih =>
      simp only [attachNodes] at h
      rcases h0 : attachData nd.name R nd.data with e | ⟨Ra, da⟩ <;> rw [h0] at h
      · simp at h
      · dsimp only at h
        rcases h1 : attachNodes Ra tl with e | ⟨Rb, msb⟩ <;> rw [h1] at h
        · simp at h
        · simp at h
          obtain ⟨hdF, hdN⟩ := attachData_keepsStr nd.name s R nd.data Ra da h0 hk
          obtain ⟨ihF, ihN⟩ := ih _ _ _ h1 hdN
          rw [← h.1, ← h.2]
          exact ⟨List.Forall₂.cons ⟨rfl, hdF⟩ ihF, ihN⟩

theorem attachNodes_noStr_reg (s : String) (R : List (String × PValue))
    (ns : List PywrNode) (R₁ : List (String × PValue)) (ns₁ : List PywrNode)
    (h : attachNodes R ns = .ok (R₁, ns₁)) (hns : noStrNodes s ns = true) :
    alookup R₁ s = alookup R s := by
  induction ns generalizing R R₁ ns₁ with
  | nil =>
      simp [attachNodes] at h
      rw [← h.1]
  | cons nd tl ih =>
      simp only [noStrNodes, Bool.and_eq_true] at hns
      simp only [attachNodes] at h
      rcases h0 : attachData nd.name R nd.data with e | ⟨Ra, da⟩ <;> rw [h0] at h
      · simp at h
      · dsimp only at h
        rcases h1 : attachNodes Ra tl with e | ⟨Rb, msb⟩ <;> rw [h1] at h
        · simp at h
        · simp at h
          rw [← h.1, ih _ _ _ h1 hns.2]
          exact attachData_noStr_reg nd.name s R nd.data Ra da h0 hns.1

theorem attachNodes_frozenExcluded (R : List (String × PValue))
    (ns : List PywrNode) (R₁ : List (String × PValue)) (ns₁ : List PywrNode)
    (h : attachNodes R ns = .ok (R₁, ns₁)) :
    List.Forall₂ frozenExcludedNode ns ns₁ := by
  induction ns generalizing R R₁ ns₁ with
  | nil =>
      simp [attachNodes] at h
      obtain ⟨hA, hB⟩ := h
      subst hA
      subst hB
      exact List.Forall₂.nil
  | cons nd tl ih =>
      simp only [attachNodes] at h
      rcases h0 : attachData nd.name R nd.data with e | ⟨Ra, da⟩ <;> rw [h0] at h
      · simp at h
      · dsimp only at h
        rcases h1 : attachNodes Ra tl with e | ⟨Rb, msb⟩ <;> rw [h1] at h
        · simp at h
        · simp at h
          rw [← h.2]
          exact List.Forall₂.cons ⟨rfl, attachData_frozenExcluded nd.name R nd.data Ra da h0⟩
            (ih _ _ _ h1)

/- ## Detach step lemmas and further registry lemmas -/

theorem detachValue_skip (R : List (String × PValue)) (v : PValue)
    (hv : ∀ nm d, v ≠ .pparam nm d) : detachValue R v = .ok (R, v) := by
  cases v with
  | pparam nm d => exact absurd rfl (hv nm d)
  | pstr s => rfl
  | pint m => rfl
  | pdict d => rfl
  | precorder nm d => rfl

theorem detachValue_param_none (R : List (String × PValue)) (nm : String)
    (d : List (String × PValue)) (h : alookup R nm = none) :
    detachValue R (.pparam nm d) = .ok (R ++ [(nm, .pparam nm d)], .pstr nm) := by
  simp [detachValue, h]

theorem detachValue_param_some (R : List (String × PValue)) (nm : String)
    (d : List (String × PValue)) (h : (alookup R nm).isSome = true) :
    detachValue R (.pparam nm d) =
      .error "Attr param name duplicates global param name" := by
  simp [detachValue, h]

theorem eraseKeys_append (R : List (String × PValue)) (ks₁ ks₂ : List String) :
    eraseKeys R (ks₁ ++ ks₂) = eraseKeys (eraseKeys R ks₁) ks₂ := by
  induction ks₁ generalizing R with
  | nil => simp [eraseKeys]
  | cons k tl ih => simp [eraseKeys, ih]

theorem regWF_eraseKeys (R : List (String × PValue)) (ks : List String)
    (h : regWF R = true) : regWF (eraseKeys R ks) = true := by
  induction ks generalizing R with
  | nil => simpa [eraseKeys]
  | cons k tl ih => simp [eraseKeys, ih _ (regWF_aerase R k h)]

theorem alookup_none_of_not_mem_keys {α : Type} (l : List (String × α))
    (k : String) (h : k ∉ akeys l) : alookup l k = none := by
  induction l with
  | nil => rfl
  | cons hd tl ih =>
      obtain ⟨k', v'⟩ := hd
      rw [show akeys ((k', v') :: tl) = k' :: akeys tl from rfl] at h
      simp only [List.mem_cons] at h
      push_neg at h
      simp [alookup, Ne.symm h.1, ih h.2]

theorem mem_keys_of_alookup {α : Type} (l : List (String × α)) (k : String)
    (v : α) (h : alookup l k = some v) : k ∈ akeys l := by
  have := alookup_mem l k v h
  exact List.mem_map_of_mem Prod.fst this

/- ## Destructuring helpers -/

theorem attach_parameters_ok (net net' : PywrNetwork)
    (h : attach_parameters net = .ok net') :
    ∃ R' ns', attachNodes net.parameters net.nodes = .ok (R', ns') ∧
      net' = { net with parameters := R', nodes := ns' } := by
  unfold attach_parameters at h
  rcases h0 : attachNodes net.parameters net.nodes with e | ⟨R', ns'⟩ <;> rw [h0] at h
  · simp at h
  · simp at h
    exact ⟨R', ns', rfl, h.symm⟩

theorem attachNodes_split (R : List (String × PValue)) (ns₁ ns₂ : List PywrNode)
    (R₁ : List (String × PValue)) (nsf : List PywrNode)
    (h : attachNodes R (ns₁ ++ ns₂) = .ok (R₁, nsf)) :
    ∃ Q ms₁ ms₂, attachNodes R ns₁ = .ok (Q, ms₁) ∧
      attachNodes Q ns₂ = .ok (R₁, ms₂) ∧ nsf = ms₁ ++ ms₂ := by
  rw [attachNodes_append] at h
  rcases h1 : attachNodes R ns₁ with e | ⟨Q, ms₁⟩ <;> rw [h1] at h
  · simp at h
  · dsimp only at h
    rcases h2 : attachNodes Q ns₂ with e | ⟨R₂, ms₂⟩ <;> rw [h2] at h
    · simp at h
    · simp at h
      refine ⟨Q, ms₁, ms₂, rfl, ?_, h.2.symm⟩
      rw [← h.1]
      exact h2

theorem attachNodes_cons_ok (R : List (String × PValue)) (nd : PywrNode)
    (tl : List PywrNode) (R₁ : List (String × PValue)) (nsf : List PywrNode)
    (h : attachNodes R (nd :: tl) = .ok (R₁, nsf)) :
    ∃ Ra da ns₁, attachData nd.name R nd.data = .ok (Ra, da) ∧
      attachNodes Ra tl = .ok (R₁, ns₁) ∧
      nsf = (⟨nd.name, da⟩ : PywrNode) :: ns₁ := by
  simp only [attachNodes] at h
  rcases h0 : attachData nd.name R nd.data with e | ⟨Ra, da⟩ <;> rw [h0] at h
  · simp at h
  · dsimp only at h
    rcases h1 : attachNodes Ra tl with e | ⟨Rb, msb⟩ <;> rw [h1] at h
    · simp at h
    · simp at h
      refine ⟨Ra, da, msb, rfl, ?_, h.2.symm⟩
      rw [← h.1]
      exact h1

theorem attachData_split (n : String) (R d₁ d₂ R₁ df : List (String × PValue))
    (h : attachData n R (d₁ ++ d₂) = .ok (R₁, df)) :
    ∃ Q r₁ r₂, attachData n R d₁ = .ok (Q, r₁) ∧
      attachData n Q d₂ = .ok (R₁, r₂) ∧ df = r₁ ++ r₂ := by
  rw [attachData_append] at h
  rcases h1 : attachData n R d₁ with e | ⟨Q, r₁⟩ <;> rw [h1] at h
  · simp at h
  · dsimp only at h
    rcases h2 : attachData n Q d₂ with e | ⟨R₂, r₂⟩ <;> rw [h2] at h
    · simp at h
    · simp at h
      refine ⟨Q, r₁, r₂, rfl, ?_, h.2.symm⟩
      rw [← h.1]
      exact h2

theorem attachData_cons_ok (n : String) (R : List (String × PValue))
    (a : String) (v : PValue) (rest R₁ df : List (String × PValue))
    (h : attachData n R ((a, v) :: rest) = .ok (R₁, df)) :
    ∃ Ra va r₁, attachValue R n a v = .ok (Ra, va) ∧
      attachData n Ra rest = .ok (R₁, r₁) ∧ df = (a, va) :: r₁ := by
  simp only [attachData] at h
  rcases h0 : attachValue R n a v with e | ⟨Ra, va⟩ <;> rw [h0] at h
  · simp at h
  · dsimp only at h
    rcases h1 : attachData n Ra rest with e | ⟨Rb, rb⟩ <;> rw [h1] at h
    · simp at h
    · simp at h
      refine ⟨Ra, va, rb, rfl, ?_, h.2.symm⟩
      rw [← h.1]
      exact h1

/- ## Round-trip lemmas (attach then detach) -/

theorem keysNodup_append {α : Type} (A B : List (String × α))
    (hA : keysNodup A = true) (hB : keysNodup B = true)
    (hdisj : ∀ k, k ∈ akeys B → alookup A k = none) :
    keysNodup (A ++ B) = true := by
  induction A with
  | nil => simpa
  | cons p ptl ih =>
      obtain ⟨k0, q0⟩ := p
      simp only [keysNodup, Bool.and_eq_true, Option.isNone_iff_eq_none] at hA
      rw [List.cons_append]
      simp only [keysNodup, Bool.and_eq_true, Option.isNone_iff_eq_none]
      refine ⟨?_, ih hA.2 (fun k hk => ?_)⟩
      · rw [alookup_append, hA.1]
        have hk0 : alookup B k0 = none := by
          rcases hB0 : alookup B k0 with _ | q
          · rfl
          · have := hdisj k0 (mem_keys_of_alookup B k0 q hB0)
            simp [alookup] at this
        simp [hk0]
      · have := hdisj k hk
        by_cases hkk : k0 = k
        · subst hkk
          simp [alookup] at this
        · simp [alookup, hkk] at this
          exact this

theorem roundtrip_step (R : List (String × PValue)) (n a : String) (v : PValue)
    (hWF : regWF R = true) (hRT : roundtrippable a v = true) :
    (attachValue R n a v = .ok (R, v) ∧ ∀ Q, detachValue Q v = .ok (Q, v)) ∨
    (∃ s dp, v = .pstr s ∧ excludedAttr a = false ∧
      alookup R s = some (.pparam s dp) ∧
      attachValue R n a v = .ok (aerase R s, .pparam s dp)) := by
  cases v with
  | pparam nm d => simp [roundtrippable] at hRT
  | pint m =>
      left
      refine ⟨?_, fun Q => detachValue_skip Q _ (by intro nm d hh; exact PValue.noConfusion hh)⟩
      by_cases he : excludedAttr a = true
      · exact attachValue_excluded R n a _ he
      · simp only [Bool.not_eq_true] at he
        simp [attachValue, he]
  | precorder nm d =>
      left
      refine ⟨?_, fun Q => detachValue_skip Q _ (by intro nm' d' hh; exact PValue.noConfusion hh)⟩
      by_cases he : excludedAttr a = true
      · exact attachValue_excluded R n a _ he
      · simp only [Bool.not_eq_true] at he
        simp [attachValue, he]
  | pdict d =>
      left
      refine ⟨?_, fun Q => detachValue_skip Q _ (by intro nm d' hh; exact PValue.noConfusion hh)⟩
      simp only [roundtrippable] at hRT
      rcases Bool.or_eq_true_iff.mp hRT with he | hs
      · exact attachValue_excluded R n a _ he
      · exact attachValue_dict_skip R n a d hs
  | pstr s =>
      by_cases he : excludedAttr a = true
      · exact Or.inl ⟨attachValue_excluded R n a _ he,
          fun Q => detachValue_skip Q _ (by intro nm d hh; exact PValue.noConfusion hh)⟩
      · simp only [Bool.not_eq_true] at he
        rcases hl : alookup R s with _ | p
        · exact Or.inl ⟨attachValue_str_none R n a s he hl,
            fun Q => detachValue_skip Q _ (by intro nm d hh; exact PValue.noConfusion hh)⟩
        · obtain ⟨dp, hpp⟩ := regWF_lookup R s p hWF hl
          subst hpp
          exact Or.inr ⟨s, dp, rfl, he, hl,
            attachValue_str_some R n a s _ he hl rfl⟩

theorem attachData_round (n : String) (d : List (String × PValue)) :
    ∀ R, regWF R = true → keysNodup R = true → dataRoundtrippable d = true →
    ∃ T d₁, attachData n R d = .ok (eraseKeys R (akeys T), d₁) ∧
      (∀ k q, (k, q) ∈ T → alookup R k = some q ∧ ∃ dq, q = .pparam k dq) ∧
      keysNodup T = true ∧
      ∀ Q, (∀ k, k ∈ akeys T → alookup Q k = none) →
        detachData Q d₁ = .ok (Q ++ T, d) := by
  induction d with
  | nil =>
      intro R hWF hND hRT
      refine ⟨[], [], by simp [attachData, eraseKeys, akeys], by simp, by simp [keysNodup], ?_⟩
      intro Q hQ
      simp [detachData]
  | cons hd tl ih =>
      intro R hWF hND hRT
      obtain ⟨a, v⟩ := hd
      simp only [dataRoundtrippable, Bool.and_eq_true] at hRT
      rcases roundtrip_step R n a v hWF hRT.1 with ⟨hav, hdv⟩ | ⟨s, dp, hv, hex, hl, hav⟩
      · obtain ⟨T, d₁, hat, hmem, hnd, hdet⟩ := ih R hWF hND hRT.2
        refine ⟨T, (a, v) :: d₁, ?_, hmem, hnd, ?_⟩
        · simp only [attachData, hav, hat]
        · intro Q hQ
          simp only [detachData, hdv Q, hdet Q hQ]
      · subst hv
        have hWF' : regWF (aerase R s) = true := regWF_aerase R s hWF
        have hND' : keysNodup (aerase R s) = true := keysNodup_aerase R s hND
        obtain ⟨T, d₁, hat, hmem, hnd, hdet⟩ := ih (aerase R s) hWF' hND' hRT.2
        have hserased : alookup (aerase R s) s = none := aerase_lookup_self R s hND
        have hsnotT : alookup T s = none := by
          rcases hTs : alookup T s with _ | q
          · rfl
          · have := (hmem s q (alookup_mem T s q hTs)).1
            rw [hserased] at this
            exact absurd this (by simp)
        have hknots : ∀ k, k ∈ akeys T → ¬ k = s := by
          intro k hk hh
          obtain ⟨⟨k1, q⟩, hmemq, hfst⟩ := List.mem_map.mp hk
          dsimp only at hfst
          have hmm := (hmem k1 q hmemq).1
          rw [hfst, hh, hserased] at hmm
          exact absurd hmm (by simp)
        refine ⟨(s, .pparam s dp) :: T, (a, .pparam s dp) :: d₁, ?_, ?_, ?_, ?_⟩
        · simp only [attachData, hav, hat]
          rfl
        · intro k q hkq
          rcases List.mem_cons.mp hkq with heq | hmemT
          · rw [Prod.mk.injEq] at heq
            obtain ⟨h1, h2⟩ := heq
            subst h1
            subst h2
            exact ⟨hl, dp, rfl⟩
          · obtain ⟨hlk, hq⟩ := hmem k q hmemT
            have hks : ¬ k = s := by
              intro hh
              subst hh
              rw [hserased] at hlk
              exact absurd hlk (by simp)
            rw [aerase_lookup_ne R s k hks] at hlk
            exact ⟨hlk, hq⟩
        · simp only [keysNodup, hsnotT, Option.isNone_none, Bool.true_and]
          exact hnd
        · intro Q hQ
          have hQs : alookup Q s = none := hQ s (by simp [akeys])
          have hdvQ := detachValue_param_none Q s dp hQs
          have hQ' : ∀ k, k ∈ akeys T →
              alookup (Q ++ [(s, .pparam s dp)]) k = none := by
            intro k hk
            rw [alookup_append]
            rw [hQ k (by
              rw [show akeys ((s, PValue.pparam s dp) :: T) = s :: akeys T from rfl]
              exact List.mem_cons_of_mem s hk)]
            simp [alookup, Ne.symm (hknots k hk)]
          simp only [detachData, hdvQ, hdet (Q ++ [(s, .pparam s dp)]) hQ']
          simp

theorem attachNodes_round (ns : List PywrNode) :
    ∀ R, regWF R = true → keysNodup R = true → nodesRoundtrippable ns = true →
    ∃ T ns₁, attachNodes R ns = .ok (eraseKeys R (akeys T), ns₁) ∧
      (∀ k q, (k, q) ∈ T → alookup R k = some q ∧ ∃ dq, q = .pparam k dq) ∧
      keysNodup T = true ∧
      ∀ Q, (∀ k, k ∈ akeys T → alookup Q k = none) →
        detachNodes Q ns₁ = .ok (Q ++ T, ns) := by
  induction ns with
  | nil =>
      intro R hWF hND hRT
      refine ⟨[], [], by simp [attachNodes, eraseKeys, akeys], by simp, by simp [keysNodup], ?_⟩
      intro Q hQ
      simp [detachNodes]
  | cons nd tl ih =>
      intro R hWF hND hRT
      simp only [nodesRoundtrippable, Bool.and_eq_true] at hRT
      obtain ⟨Tn, dn, hatD, hmemD, hndD, hdetD⟩ :=
        attachData_round nd.name nd.data R hWF hND hRT.1
      have hWF' : regWF (eraseKeys R (akeys Tn)) = true := regWF_eraseKeys R _ hWF
      have hND' : keysNodup (eraseKeys R (akeys Tn)) = true := keysNodup_eraseKeys R _ hND
      obtain ⟨Tr, ms, hatN, hmemN, hndN, hdetN⟩ :=
        ih (eraseKeys R (akeys Tn)) hWF' hND' hRT.2
      have hdisj : ∀ k, k ∈ akeys Tr → alookup Tn k = none := by
        intro k hk
        obtain ⟨⟨k1, q⟩, hmemq, hfst⟩ := List.mem_map.mp hk
        dsimp only at hfst
        have hlq := (hmemN k1 q hmemq).1
        rw [hfst] at hlq
        rcases hTn : alookup Tn k with _ | q'
        · rfl
        · have hkmem : k ∈ akeys Tn := mem_keys_of_alookup Tn k q' hTn
          rw [eraseKeys_lookup_mem R (akeys Tn) k hND hkmem] at hlq
          exact absurd hlq (by simp)
      have hTrR : ∀ k q, (k, q) ∈ Tr → alookup R k = some q ∧ ∃ dq, q = .pparam k dq := by
        intro k q hkq
        obtain ⟨hlq, hq⟩ := hmemN k q hkq
        have hknotin : k ∉ akeys Tn := by
          intro hmem2
          rw [eraseKeys_lookup_mem R (akeys Tn) k hND hmem2] at hlq
          exact absurd hlq (by simp)
        rw [eraseKeys_lookup_notmem R (akeys Tn) k hknotin] at hlq
        exact ⟨hlq, hq⟩
      refine ⟨Tn ++ Tr, (⟨nd.name, dn⟩ : PywrNode) :: ms, ?_, ?_, ?_, ?_⟩
      · simp only [attachNodes, hatD]
        rw [show akeys (Tn ++ Tr) = akeys Tn ++ akeys Tr by simp [akeys]]
        rw [eraseKeys_append]
        simp only [hatN]
      · intro k q hkq
        rcases List.mem_append.mp hkq with hmem1 | hmem2
        · exact hmemD k q hmem1
        · exact hTrR k q hmem2
      · exact keysNodup_append Tn Tr hndD hndN hdisj
      · intro Q hQ
        have hkeyscat : akeys (Tn ++ Tr) = akeys Tn ++ akeys Tr := by
          simp [akeys]
        have hQn : ∀ k, k ∈ akeys Tn → alookup Q k = none := by
          intro k hk
          refine hQ k ?_
          rw [hkeyscat]
          exact List.mem_append_left _ hk
        have hdD := hdetD Q hQn
        have hQ' : ∀ k, k ∈ akeys Tr → alookup (Q ++ Tn) k = none := by
          intro k hk
          rw [alookup_append]
          rw [hQ k (by rw [hkeyscat]; exact List.mem_append_right _ hk)]
          simp [hdisj k hk]
        have hdN := hdetN (Q ++ Tn) hQ'
        simp only [detachNodes, hdD, hdN]
        simp [List.append_assoc]

/- ## Lemmas for add_parameter_references -/

theorem findNode_cons (x : PywrNode) (tl : List PywrNode) (nn : String) :
    findNode (x :: tl) nn = if x.name = nn then some x else findNode tl nn := by
  by_cases hx : x.name = nn
  · rw [if_pos hx]
    exact List.find?_cons_of_pos _ (by simp [hx])
  · rw [if_neg hx]
    exact List.find?_cons_of_neg _ (by simp [hx])

theorem setAttr_cons (x : PywrNode) (tl : List PywrNode) (nn a k : String) :
    setAttr (x :: tl) nn a k =
      (if x.name = nn then
        (if nodeHasAttr x a then x else ⟨x.name, x.data ++ [(a, .pstr k)]⟩)
       else x) :: setAttr tl nn a k := rfl

theorem refsMono_rfl (nd : PywrNode) : refsMono nd nd :=
  ⟨rfl, fun _ _ h => h⟩

theorem refsMono_trans (x y z : PywrNode) (h1 : refsMono x y)
    (h2 : refsMono y z) : refsMono x z :=
  ⟨h2.1.trans h1.1, fun b v hb => h2.2 b v (h1.2 b v hb)⟩

theorem forall₂_refsMono_refl (A : List PywrNode) :
    List.Forall₂ refsMono A A := by
  induction A with
  | nil => exact List.Forall₂.nil
  | cons x tl ih => exact List.Forall₂.cons (refsMono_rfl x) ih

theorem forall₂_refsMono_trans (A B C : List PywrNode)
    (h1 : List.Forall₂ refsMono A B) (h2 : List.Forall₂ refsMono B C) :
    List.Forall₂ refsMono A C := by
  induction h1 generalizing C with
  | nil =>
      cases h2
      exact List.Forall₂.nil
  | cons hxy htl ih =>
      cases h2 with
      | cons hyz htl2 => exact List.Forall₂.cons (refsMono_trans _ _ _ hxy hyz) (ih _ htl2)

theorem setAttr_refsMono (nodes : List PywrNode) (nn a k : String) :
    List.Forall₂ refsMono nodes (setAttr nodes nn a k) := by
  induction nodes with
  | nil => exact List.Forall₂.nil
  | cons x tl ih =>
      rw [setAttr_cons]
      refine List.Forall₂.cons ?_ ih
      by_cases h1 : x.name = nn
      · rw [if_pos h1]
        by_cases h2 : nodeHasAttr x a = true
        · rw [if_pos h2]
          exact refsMono_rfl x
        · rw [if_neg h2]
          refine ⟨rfl, fun b v hb => ?_⟩
          dsimp only
          rw [alookup_append, hb]
      · rw [if_neg h1]
        exact refsMono_rfl x

theorem addRefsKeys_refsMono (ks : List String) (nodes : List PywrNode) :
    List.Forall₂ refsMono nodes (addRefsKeys nodes ks) := by
  induction ks generalizing nodes with
  | nil =>
      simp only [addRefsKeys]
      exact forall₂_refsMono_refl nodes
  | cons k rest ih =>
      simp only [addRefsKeys]
      rcases hp : parse_reference_key k with _ | ⟨nn, a⟩
      · exact ih nodes
      · dsimp only
        by_cases hf : (findNode nodes nn).isSome = true
        · rw [if_pos hf]
          exact forall₂_refsMono_trans _ _ _ (setAttr_refsMono nodes nn a k)
            (ih (setAttr nodes nn a k))
        · rw [if_neg hf]
          exact ih nodes

theorem findNode_refsMono (A B : List PywrNode) (nn : String) (nd : PywrNode)
    (hF : List.Forall₂ refsMono A B) (h : findNode A nn = some nd) :
    ∃ nd', findNode B nn = some nd' ∧ refsMono nd nd' := by
  induction hF with
  | nil => simp [findNode] at h
  | cons hxy htl ih =>
      rename_i x y tx ty
      rw [findNode_cons] at h
      rw [findNode_cons]
      by_cases hx : x.name = nn
      · have hy : y.name = nn := hxy.1.trans hx
        rw [if_pos hx] at h
        rw [if_pos hy]
        injection h with h
        exact ⟨y, rfl, h ▸ hxy⟩
      · have hy : ¬ y.name = nn := fun hh => hx (hxy.1.symm.trans hh)
        rw [if_neg hx] at h
        rw [if_neg hy]
        exact ih h

theorem refsMono_keeps (A B : List PywrNode) (nn a k : String)
    (hF : List.Forall₂ refsMono A B)
    (h : ∃ nd, findNode A nn = some nd ∧ alookup nd.data a = some (.pstr k)) :
    ∃ nd', findNode B nn = some nd' ∧ alookup nd'.data a = some (.pstr k) := by
  obtain ⟨nd, hf, hl⟩ := h
  obtain ⟨nd', hf', hm⟩ := findNode_refsMono A B nn nd hF hf
  exact ⟨nd', hf', hm.2 a _ hl⟩

theorem addRefsKeys_keeps (ks : List String) (nodes : List PywrNode)
    (nn a k : String)
    (h : ∃ nd, findNode nodes nn = some nd ∧ alookup nd.data a = some (.pstr k)) :
    ∃ nd', findNode (addRefsKeys nodes ks) nn = some nd' ∧
      alookup nd'.data a = some (.pstr k) :=
  refsMono_keeps _ _ nn a k (addRefsKeys_refsMono ks nodes) h

theorem setAttr_sets (nodes : List PywrNode) (nn a k : String) (nd : PywrNode)
    (hf : findNode nodes nn = some nd)
    (hinv : alookup nd.data a = none ∨ alookup nd.data a = some (.pstr k)) :
    ∃ nd', findNode (setAttr nodes nn a k) nn = some nd' ∧
      alookup nd'.data a = some (.pstr k) := by
  induction nodes with
  | nil => simp [findNode] at hf
  | cons x tl ih =>
      rw [findNode_cons] at hf
      rw [setAttr_cons, findNode_cons]
      by_cases hx : x.name = nn
      · rw [if_pos hx] at hf
        injection hf with hf2
        rw [if_pos hx]
        by_cases h2 : nodeHasAttr x a = true
        · rw [if_pos h2]
          rw [if_pos hx]
          rcases hinv with hnone | hsome
          · rw [nodeHasAttr, hf2, hnone] at h2
            simp at h2
          · exact ⟨x, rfl, by rw [hf2]; exact hsome⟩
        · rw [if_neg h2]
          rw [if_pos (show (⟨x.name, x.data ++ [(a, PValue.pstr k)]⟩ : PywrNode).name = nn from hx)]
          refine ⟨⟨x.name, x.data ++ [(a, .pstr k)]⟩, rfl, ?_⟩
          dsimp only
          rw [alookup_append]
          rcases hinv with hnone | hsome
          · rw [← hf2] at hnone
            rw [hnone]
            simp [alookup]
          · rw [nodeHasAttr, hf2, hsome] at h2
            simp at h2
      · rw [if_neg hx] at hf
        rw [if_neg hx, if_neg hx]
        exact ih hf

theorem refsMono_covers (A B : List PywrNode) (nn a : String)
    (hF : List.Forall₂ refsMono A B)
    (h : ∀ nd, nd ∈ A → nd.name = nn → (alookup nd.data a).isSome = true) :
    ∀ nd', nd' ∈ B → nd'.name = nn → (alookup nd'.data a).isSome = true := by
  induction hF with
  | nil =>
      intro nd' h' _
      simp at h'
  | cons hxy htl ih =>
      rename_i x y tx ty
      intro nd' hmem hname
      rcases List.mem_cons.mp hmem with he | hm
      · subst he
        have hxname : x.name = nn := hxy.1.symm.trans hname
        have hx := h x (List.mem_cons_self _ _) hxname
        obtain ⟨v, hv⟩ := Option.isSome_iff_exists.mp hx
        rw [hxy.2 a v hv]
        rfl
      · exact ih (fun nd hnd hn => h nd (List.mem_cons_of_mem _ hnd) hn) nd' hm hname

theorem refsMono_mem_rev (A B : List PywrNode) (nd' : PywrNode)
    (hF : List.Forall₂ refsMono A B) (h : nd' ∈ B) :
    ∃ nd, nd ∈ A ∧ nd'.name = nd.name := by
  induction hF with
  | nil => simp at h
  | cons hxy htl ih =>
      rename_i x y tx ty
      rcases List.mem_cons.mp h with he | hm
      · subst he
        exact ⟨x, List.mem_cons_self _ _, hxy.1⟩
      · obtain ⟨nd, hnd, hn⟩ := ih hm
        exact ⟨nd, List.mem_cons_of_mem _ hnd, hn⟩

theorem setAttr_covers (nodes : List PywrNode) (nn a k : String) :
    ∀ nd', nd' ∈ setAttr nodes nn a k → nd'.name = nn →
      (alookup nd'.data a).isSome = true := by
  intro nd' hnd' hname
  obtain ⟨nd, hmemN, heq⟩ := List.mem_map.mp hnd'
  by_cases h1 : nd.name = nn
  · by_cases h2 : nodeHasAttr nd a = true
    · have : nd' = nd := by
        rw [← heq]
        rw [if_pos h1, if_pos h2]
      rw [this]
      exact h2
    · have : nd' = ⟨nd.name, nd.data ++ [(a, .pstr k)]⟩ := by
        rw [← heq]
        rw [if_pos h1, if_neg h2]
      rw [this]
      dsimp only
      rw [alookup_append]
      have hnone : alookup nd.data a = none := by
        rcases hl : alookup nd.data a with _ | v
        · rfl
        · rw [nodeHasAttr, hl] at h2
          simp at h2
      rw [hnone]
      simp [alookup]
  · have : nd' = nd := by
      rw [← heq]
      rw [if_neg h1]
    rw [this] at hname
    exact absurd hname h1

theorem addRefsKeys_sets (ks : List String) :
    ∀ nodes k nn a,
    parse_reference_key k = some (nn, a) → k ∈ ks →
    (∀ k', k' ∈ ks → ¬ k' = k → ¬ parse_reference_key k' = some (nn, a)) →
    (∀ nd, nd ∈ nodes → nd.name = nn →
      (alookup nd.data a = none ∨ alookup nd.data a = some (.pstr k))) →
    (findNode nodes nn).isSome = true →
    ∃ nd', findNode (addRefsKeys nodes ks) nn = some nd' ∧
      alookup nd'.data a = some (.pstr k) := by
  induction ks with
  | nil =>
      intro nodes k nn a _ hmem
      simp at hmem
  | cons k0 rest ih =>
      intro nodes k nn a hp hmem hother hinv hfound
      by_cases hk0 : k0 = k
      · subst hk0
        simp only [addRefsKeys, hp]
        rw [if_pos hfound]
        obtain ⟨nd, hndf⟩ := Option.isSome_iff_exists.mp hfound
        have hndmem : nd ∈ nodes := List.mem_of_find?_eq_some hndf
        have hndname : nd.name = nn := by
          have := List.find?_some hndf
          exact of_decide_eq_true this
        obtain ⟨nd', hf', hl'⟩ :=
          setAttr_sets nodes nn a k0 nd hndf (hinv nd hndmem hndname)
        exact addRefsKeys_keeps rest _ nn a k0 ⟨nd', hf', hl'⟩
      · have hmem' : k ∈ rest := by
          rcases List.mem_cons.mp hmem with he | hm
          · exact absurd he.symm hk0
          · exact hm
        have hother' : ∀ k', k' ∈ rest → ¬ k' = k →
            ¬ parse_reference_key k' = some (nn, a) :=
          fun k' h1 h2 => hother k' (List.mem_cons_of_mem _ h1) h2
        simp only [addRefsKeys]
        rcases hp0 : parse_reference_key k0 with _ | ⟨nn0, a0⟩
        · exact ih nodes k nn a hp hmem' hother' hinv hfound
        · dsimp only
          by_cases hf0 : (findNode nodes nn0).isSome = true
          · rw [if_pos hf0]
            refine ih (setAttr nodes nn0 a0 k0) k nn a hp hmem' hother' ?_ ?_
            · intro nd' hnd' hname
              obtain ⟨nd, hmemN, heq⟩ := List.mem_map.mp hnd'
              by_cases h1 : nd.name = nn0
              · by_cases h2 : nodeHasAttr nd a = true
                · by_cases h3 : nodeHasAttr nd a0 = true
                  · have : nd' = nd := by
                      rw [← heq]
                      rw [if_pos h1, if_pos h3]
                    rw [this]
                    rw [this] at hname
                    exact hinv nd hmemN hname
                  · have hnd'eq : nd' = ⟨nd.name, nd.data ++ [(a0, .pstr k0)]⟩ := by
                      rw [← heq]
                      rw [if_pos h1, if_neg h3]
                    have hna : ¬ a0 = a := by
                      intro hh
                      have hnn : nn0 = nn := by
                        rw [hnd'eq] at hname
                        dsimp only at hname
                        rw [← h1, hname]
                      exact hother k0 (List.mem_cons_self _ _) hk0
                        (by rw [hp0, hnn, hh])
                    rw [hnd'eq]
                    dsimp only
                    rw [alookup_append]
                    have hndname : nd.name = nn := by
                      rw [hnd'eq] at hname
                      dsimp only at hname
                      exact hname
                    rcases hinv nd hmemN hndname with hnone | hsome
                    · rw [hnone]
                      left
                      simp [alookup, hna]
                    · rw [hsome]
                      right
                      rfl
                · by_cases h3 : nodeHasAttr nd a0 = true
                  · have : nd' = nd := by
                      rw [← heq]
                      rw [if_pos h1, if_pos h3]
                    rw [this]
                    rw [this] at hname
                    exact hinv nd hmemN hname
                  · have hnd'eq : nd' = ⟨nd.name, nd.data ++ [(a0, .pstr k0)]⟩ := by
                      rw [← heq]
                      rw [if_pos h1, if_neg h3]
                    have hna : ¬ a0 = a := by
                      intro hh
                      have hnn : nn0 = nn := by
                        rw [hnd'eq] at hname
                        dsimp only at hname
                        rw [← h1, hname]
                      exact hother k0 (List.mem_cons_self _ _) hk0
                        (by rw [hp0, hnn, hh])
                    rw [hnd'eq]
                    dsimp only
                    rw [alookup_append]
                    have hndname : nd.name = nn := by
                      rw [hnd'eq] at hname
                      dsimp only at hname
                      exact hname
                    rcases hinv nd hmemN hndname with hnone | hsome
                    · rw [hnone]
                      left
                      simp [alookup, hna]
                    · rw [hsome]
                      right
                      rfl
              · have : nd' = nd := by
                  rw [← heq]
                  rw [if_neg h1]
                rw [this]
                rw [this] at hname
                exact hinv nd hmemN hname
            · obtain ⟨nd, hndf⟩ := Option.isSome_iff_exists.mp hfound
              obtain ⟨nd', hf', _⟩ := findNode_refsMono nodes _ nn nd
                (setAttr_refsMono nodes nn0 a0 k0) hndf
              rw [hf']
              rfl
          · rw [if_neg hf0]
            exact ih nodes k nn a hp hmem' hother' hinv hfound

theorem addRefsKeys_done (ks : List String) :
    ∀ nodes k nn a, k ∈ ks → parse_reference_key k = some (nn, a) →
    ∀ nd', nd' ∈ addRefsKeys nodes ks → nd'.name = nn →
      (alookup nd'.data a).isSome = true := by
  induction ks with
  | nil =>
      intro nodes k nn a hmem
      simp at hmem
  | cons k0 rest ih =>
      intro nodes k nn a hmem hp nd' hnd' hname
      rcases List.mem_cons.mp hmem with he | hm
      · subst he
        simp only [addRefsKeys, hp] at hnd'
        by_cases hf : (findNode nodes nn).isSome = true
        · rw [if_pos hf] at hnd'
          exact refsMono_covers (setAttr nodes nn a k) _ nn a
            (addRefsKeys_refsMono rest _) (setAttr_covers nodes nn a k)
            nd' hnd' hname
        · rw [if_neg hf] at hnd'
          have hnone : findNode nodes nn = none := by
            rcases hFN : findNode nodes nn with _ | z
            · rfl
            · rw [hFN] at hf
              simp at hf
          obtain ⟨nd, hndmem, hn⟩ :=
            refsMono_mem_rev nodes _ nd' (addRefsKeys_refsMono rest nodes) hnd'
          have := List.find?_eq_none.mp hnone nd hndmem
          rw [hname] at hn
          simp [hn.symm] at this
      · simp only [addRefsKeys] at hnd'
        rcases hp0 : parse_reference_key k0 with _ | ⟨nn0, a0⟩ <;> rw [hp0] at hnd'
        · exact ih nodes k nn a hm hp nd' hnd' hname
        · dsimp only at hnd'
          by_cases hf0 : (findNode nodes nn0).isSome = true
          · rw [if_pos hf0] at hnd'
            exact ih _ k nn a hm hp nd' hnd' hname
          · rw [if_neg hf0] at hnd'
            exact ih nodes k nn a hm hp nd' hnd' hname

theorem setAttr_id (nodes : List PywrNode) (nn a k : String)
    (h : ∀ nd, nd ∈ nodes → nd.name = nn → (alookup nd.data a).isSome = true) :
    setAttr nodes nn a k = nodes := by
  induction nodes with
  | nil => rfl
  | cons x tl ih =>
      rw [setAttr_cons]
      rw [ih (fun nd hnd hn => h nd (List.mem_cons_of_mem _ hnd) hn)]
      by_cases h1 : x.name = nn
      · rw [if_pos h1,
          if_pos (show nodeHasAttr x a = true from h x (List.mem_cons_self _ _) h1)]
      · rw [if_neg h1]

theorem addRefsKeys_id (ks : List String) :
    ∀ nodes, (∀ k nn a, k ∈ ks → parse_reference_key k = some (nn, a) →
      ∀ nd, nd ∈ nodes → nd.name = nn → (alookup nd.data a).isSome = true) →
    addRefsKeys nodes ks = nodes := by
  induction ks with
  | nil =>
      intro nodes _
      rfl
  | cons k0 rest ih =>
      intro nodes h
      simp only [addRefsKeys]
      rcases hp0 : parse_reference_key k0 with _ | ⟨nn0, a0⟩
      · exact ih nodes (fun k nn a hk => h k nn a (List.mem_cons_of_mem _ hk))
      · dsimp only
        by_cases hf : (findNode nodes nn0).isSome = true
        · rw [if_pos hf]
          rw [setAttr_id nodes nn0 a0 k0 (h k0 nn0 a0 (List.mem_cons_self _ _) hp0)]
          exact ih nodes (fun k nn a hk => h k nn a (List.mem_cons_of_mem _ hk))
        · rw [if_neg hf]
          exact ih nodes (fun k nn a hk => h k nn a (List.mem_cons_of_mem _ hk))

theorem addRefsKeys_idem (ks : List String) (nodes : List PywrNode) :
    addRefsKeys (addRefsKeys nodes ks) ks = addRefsKeys nodes ks :=
  addRefsKeys_id ks _
    (fun k nn a hk hp nd hnd hn => addRefsKeys_done ks nodes k nn a hk hp nd hnd hn)

/- ## Claim theorems -/

/-- Claim C5: `add_parameter_references()` sets, for every registry key of
the form `__<nodename>__:<attrname>` whose node exists and does not
already have the attribute, that node's attribute to the literal key
string; keys not in the format, keys whose node does not exist, and keys
whose attribute is already set are skipped without error (no existing
attribute value is ever changed — `refsMono`), the registry is untouched,
and a second invocation changes nothing. -/
theorem C5_add_parameter_references (net : PywrNetwork) :
    (∀ k nn a, k ∈ akeys net.parameters →
      parse_reference_key k = some (nn, a) →
      (findNode net.nodes nn).isSome = true →
      (∀ nd, nd ∈ net.nodes → nd.name = nn → alookup nd.data a = none) →
      ∃ nd', findNode (add_parameter_references net).nodes nn = some nd' ∧
        alookup nd'.data a = some (.pstr k)) ∧
    List.Forall₂ refsMono net.nodes (add_parameter_references net).nodes ∧
    (add_parameter_references net).parameters = net.parameters ∧
    add_parameter_references (add_parameter_references net) =
      add_parameter_references net := by
  refine ⟨?_, ?_, rfl, ?_⟩
  · intro k nn a hk hp hfound hunset
    exact addRefsKeys_sets (akeys net.parameters) net.nodes k nn a hp hk
      (fun k' _ hne hp' => hne (parse_reference_key_inj k' k (nn, a) hp' hp))
      (fun nd hnd hn => Or.inl (hunset nd hnd hn)) hfound
  · exact addRefsKeys_refsMono _ _
  · show ({ net with
        nodes := addRefsKeys (addRefsKeys net.nodes (akeys net.parameters))
          (akeys net.parameters) } : PywrNetwork) =
      { net with nodes := addRefsKeys net.nodes (akeys net.parameters) }
    rw [addRefsKeys_idem]

/-- Witness for C5: the spec's example — a global parameter named
`__Reservoir1__:max_flow` and node `Reservoir1` without a `max_flow`
attribute; after the call the node's `max_flow` holds the literal key
string, and re-invoking is a no-op. -/
theorem C5_add_parameter_references_witness :
    parse_reference_key "__Reservoir1__:max_flow" = some ("Reservoir1", "max_flow") ∧
    (∃ nd', findNode (add_parameter_references
        (⟨[], [], [], [], [⟨"Reservoir1", [("name", .pstr "Reservoir1")]⟩], [],
          [("__Reservoir1__:max_flow",
            .pparam "__Reservoir1__:max_flow" [("type", .pstr "c")])],
          []⟩ : PywrNetwork)).nodes "Reservoir1" = some nd' ∧
      alookup nd'.data "max_flow" = some (.pstr "__Reservoir1__:max_flow")) ∧
    add_parameter_references (add_parameter_references
      (⟨[], [], [], [], [⟨"Reservoir1", [("name", .pstr "Reservoir1")]⟩], [],
        [("__Reservoir1__:max_flow",
          .pparam "__Reservoir1__:max_flow" [("type", .pstr "c")])],
        []⟩ : PywrNetwork)) =
      add_parameter_references
      (⟨[], [], [], [], [⟨"Reservoir1", [("name", .pstr "Reservoir1")]⟩], [],
        [("__Reservoir1__:max_flow",
          .pparam "__Reservoir1__:max_flow" [("type", .pstr "c")])],
        []⟩ : PywrNetwork) := by
  refine ⟨by decide, ?_, ?_⟩
  · refine (C5_add_parameter_references
      ⟨[], [], [], [], [⟨"Reservoir1", [("name", .pstr "Reservoir1")]⟩], [],
        [("__Reservoir1__:max_flow",
          .pparam "__Reservoir1__:max_flow" [("type", .pstr "c")])],
        []⟩).1 "__Reservoir1__:max_flow" "Reservoir1" "max_flow"
      (by decide) (by decide) rfl ?_
    intro nd hnd hn
    rw [List.mem_singleton] at hnd
    subst hnd
    rfl
  · exact (C5_add_parameter_references
      ⟨[], [], [], [], [⟨"Reservoir1", [("name", .pstr "Reservoir1")]⟩], [],
        [("__Reservoir1__:max_flow",
          .pparam "__Reservoir1__:max_flow" [("type", .pstr "c")])],
        []⟩).2.2.2

/-- Claim C10: `attach_parameters()` excludes the reserved attribute names
case-insensitively: every node attribute whose name lowercased equals
`name` or `type` is left entirely unchanged by a successful
`attach_parameters()`, whatever its value. -/
theorem C10_reserved_attrs_unchanged (net net' : PywrNetwork)
    (h : attach_parameters net = .ok net') :
    List.Forall₂ frozenExcludedNode net.nodes net'.nodes := by
  obtain ⟨R', ns', hok, hnet⟩ := attach_parameters_ok net net' h
  rw [hnet]
  exact attachNodes_frozenExcluded _ _ _ _ hok

/-- Witness for C10 at a concrete network: the attributes named `Name`
and `TYPE` keep their string values (which do name a global parameter)
while the attribute `flow` is attached. -/
theorem C10_reserved_attrs_unchanged_witness :
    attach_parameters
      (⟨[], [], [], [],
        [⟨"N", [("Name", .pstr "G"), ("TYPE", .pstr "G"), ("flow", .pstr "G")]⟩],
        [], [("G", .pparam "G" [("type", .pstr "x")])], []⟩ : PywrNetwork) =
      .ok ⟨[], [], [], [],
        [⟨"N", [("Name", .pstr "G"), ("TYPE", .pstr "G"),
                ("flow", .pparam "G" [("type", .pstr "x")])]⟩],
        [], [], []⟩ ∧
    List.Forall₂ frozenExcludedNode
      [(⟨"N", [("Name", .pstr "G"), ("TYPE", .pstr "G"), ("flow", .pstr "G")]⟩ : PywrNode)]
      [⟨"N", [("Name", .pstr "G"), ("TYPE", .pstr "G"),
              ("flow", .pparam "G" [("type", .pstr "x")])]⟩] :=
  ⟨rfl,
   C10_reserved_attrs_unchanged
     ⟨[], [], [], [],
       [⟨"N", [("Name", .pstr "G"), ("TYPE", .pstr "G"), ("flow", .pstr "G")]⟩],
       [], [("G", .pparam "G" [("type", .pstr "x")])], []⟩
     ⟨[], [], [], [],
       [⟨"N", [("Name", .pstr "G"), ("TYPE", .pstr "G"),
               ("flow", .pparam "G" [("type", .pstr "x")])]⟩],
       [], [], []⟩
     rfl⟩

theorem detachData_append (d₁ d₂ R : List (String × PValue)) :
    detachData R (d₁ ++ d₂) =
      match detachData R d₁ with
      | .error e => .error e
      | .ok (Q, r₁) =>
          match detachData Q d₂ with
          | .error e => .error e
          | .ok (R₂, r₂) => .ok (R₂, r₁ ++ r₂) := by
  induction d₁ generalizing R with
  | nil =>
      simp only [List.nil_append, detachData]
      rcases detachData R d₂ with e | ⟨R₂, r₂⟩ <;> simp
  | cons hd tl ih =>
      obtain ⟨a, v⟩ := hd
      simp only [List.cons_append, detachData]
      rcases h0 : detachValue R v with e | ⟨Ra, va⟩
      · simp
      · dsimp only
        rw [List.append_eq, ih Ra]
        rcases h1 : detachData Ra tl with e | ⟨Q, r₁⟩
        · simp [h1]
        · simp only [h1]
          rcases h2 : detachData Q d₂ with e | ⟨R₂, r₂⟩ <;> simp [h2]

/-- Claim C1 (amended): `attach_parameters()` followed by
`detach_parameters()` is a round trip — the registry has the same
key-to-parameter mapping and the nodes are exactly restored — provided,
beyond the absence of name collisions (registry keys are distinct and
key each parameter by its own name), that no node attribute holds an
already-attached parameter object and no node attribute is an inline
parameter-definition dict (one whose `type` is a truthy non-recorder
string): such attributes are serialized by the pair as a name string
plus a registry entry, not restored (see the counterexample). -/
theorem C1_attach_detach_roundtrip (net : PywrNetwork)
    (hWF : regWF net.parameters = true)
    (hND : keysNodup net.parameters = true)
    (hRT : nodesRoundtrippable net.nodes = true) :
    ∃ net₁ net₂, attach_parameters net = .ok net₁ ∧
      detach_parameters net₁ = .ok net₂ ∧
      net₂.nodes = net.nodes ∧
      (∀ k, alookup net₂.parameters k = alookup net.parameters k) ∧
      net₂.metadata = net.metadata ∧ net₂.timestepper = net.timestepper ∧
      net₂.scenarios = net.scenarios ∧ net₂.tables = net.tables ∧
      net₂.edges = net.edges ∧ net₂.recorders = net.recorders := by
  obtain ⟨T, ns₁, hat, hmem, hndT, hdet⟩ :=
    attachNodes_round net.nodes net.parameters hWF hND hRT
  have hQerased : ∀ k, k ∈ akeys T →
      alookup (eraseKeys net.parameters (akeys T)) k = none := by
    intro k hk
    exact eraseKeys_lookup_mem _ _ _ hND hk
  have hdet2 := hdet (eraseKeys net.parameters (akeys T)) hQerased
  refine ⟨{ net with parameters := eraseKeys net.parameters (akeys T), nodes := ns₁ },
          { net with parameters := eraseKeys net.parameters (akeys T) ++ T,
                     nodes := net.nodes },
          ?_, ?_, rfl, ?_, rfl, rfl, rfl, rfl, rfl, rfl⟩
  · unfold attach_parameters
    rw [hat]
  · unfold detach_parameters
    dsimp only
    rw [hdet2]
  · intro k
    dsimp only
    rw [alookup_append]
    by_cases hk : k ∈ akeys T
    · rw [eraseKeys_lookup_mem _ _ _ hND hk]
      obtain ⟨⟨k1, q⟩, hmemq, hfst⟩ := List.mem_map.mp hk
      dsimp only at hfst
      subst hfst
      have hh := hmem k1 q hmemq
      rw [mem_alookup T k1 q hndT hmemq]
      exact hh.1.symm
    · rw [eraseKeys_lookup_notmem _ _ _ hk]
      rcases hRk : alookup net.parameters k with _ | q
      · rw [alookup_none_of_not_mem_keys T k hk]
      · rfl

/-- Counterexample to claim C1 as stated: a parse-shaped network with no
name collisions whose single node attribute is an inline parameter
definition.  After attach then detach the attribute holds the canonical
name string instead of the dict, and the registry holds a key it did not
hold before — the round trip does not restore the pre-attach content. -/
theorem C1_attach_detach_roundtrip_cex :
    attach_parameters
      (⟨[], [], [], [],
        [⟨"N", [("a", .pdict [("type", .pstr "xparameter")])]⟩],
        [], [], []⟩ : PywrNetwork) =
      .ok ⟨[], [], [], [],
        [⟨"N", [("a", .pparam "__N__:a" [("type", .pstr "xparameter")])]⟩],
        [], [], []⟩ ∧
    detach_parameters
      (⟨[], [], [], [],
        [⟨"N", [("a", .pparam "__N__:a" [("type", .pstr "xparameter")])]⟩],
        [], [], []⟩ : PywrNetwork) =
      .ok ⟨[], [], [], [], [⟨"N", [("a", .pstr "__N__:a")]⟩], [],
           [("__N__:a", .pparam "__N__:a" [("type", .pstr "xparameter")])], []⟩ ∧
    (alookup ([] : List (String × PValue)) "__N__:a").isSome = false ∧
    (alookup [("__N__:a", PValue.pparam "__N__:a" [("type", PValue.pstr "xparameter")])]
      "__N__:a").isSome = true :=
  ⟨rfl, rfl, rfl, rfl⟩

/-- Witness for the amended C1 at a concrete network holding a global
string reference, reserved attributes, a number and a recorder-typed
dict: attach then detach restores registry and nodes. -/
theorem C1_attach_detach_roundtrip_witness :
    regWF [("flow_max", PValue.pparam "flow_max" [("type", PValue.pstr "c")])] = true ∧
    (∃ net₁ net₂,
      attach_parameters
        (⟨[], [], [], [],
          [⟨"N", [("name", .pstr "N"), ("max_flow", .pstr "flow_max"),
                  ("lvl", .pint 3),
                  ("rec", .pdict [("type", .pstr "NodeRecorder")])]⟩],
          [], [("flow_max", .pparam "flow_max" [("type", .pstr "c")])], []⟩ : PywrNetwork) =
        .ok net₁ ∧
      detach_parameters net₁ = .ok net₂ ∧
      net₂.nodes =
        [⟨"N", [("name", .pstr "N"), ("max_flow", .pstr "flow_max"),
                ("lvl", .pint 3),
                ("rec", .pdict [("type", .pstr "NodeRecorder")])]⟩] ∧
      (∀ k, alookup net₂.parameters k =
        alookup [("flow_max", PValue.pparam "flow_max" [("type", PValue.pstr "c")])] k) ∧
      net₂.metadata = [] ∧ net₂.timestepper = [] ∧
      net₂.scenarios = [] ∧ net₂.tables = [] ∧
      net₂.edges = [] ∧ net₂.recorders = []) :=
  ⟨by decide,
   C1_attach_detach_roundtrip
     ⟨[], [], [], [],
       [⟨"N", [("name", .pstr "N"), ("max_flow", .pstr "flow_max"),
               ("lvl", .pint 3),
               ("rec", .pdict [("type", .pstr "NodeRecorder")])]⟩],
       [], [("flow_max", .pparam "flow_max" [("type", .pstr "c")])], []⟩
     (by decide) (by decide) (by decide)⟩

/-- Claim C2: during `attach_parameters()`, a non-excluded string-valued
attribute that names a key of the global parameter registry is replaced
by that registry's parameter object and the entry is removed from the
registry; one that names no key is left unchanged and raises no error.
The attribute is located by the split hypotheses; the `noStr` premises
say it is the first attribute (in processing order) holding that string,
so the registry still holds the entry when it is reached. -/
theorem C2_string_reference_attachment
    (net net' : PywrNetwork) (ns₁ ns₂ : List PywrNode) (node : PywrNode)
    (d₁ d₂ : List (String × PValue)) (a s : String)
    (hsplit : net.nodes = ns₁ ++ node :: ns₂)
    (hdata : node.data = d₁ ++ (a, .pstr s) :: d₂)
    (hexcl : excludedAttr a = false)
    (hWF : regWF net.parameters = true)
    (hND : keysNodup net.parameters = true)
    (hfirstN : noStrNodes s ns₁ = true)
    (hfirstD : noStrData s d₁ = true)
    (hok : attach_parameters net = .ok net') :
    (∀ p, alookup net.parameters s = some p →
      ∃ ns₁' d₁' d₂' ns₂',
        net'.nodes = ns₁' ++ (⟨node.name, d₁' ++ (a, p) :: d₂'⟩ : PywrNode) :: ns₂' ∧
        ns₁'.length = ns₁.length ∧ d₁'.length = d₁.length ∧
        alookup net'.parameters s = none) ∧
    (alookup net.parameters s = none →
      ∃ ns₁' d₁' d₂' ns₂',
        net'.nodes = ns₁' ++ (⟨node.name, d₁' ++ (a, .pstr s) :: d₂'⟩ : PywrNode) :: ns₂' ∧
        ns₁'.length = ns₁.length ∧ d₁'.length = d₁.length ∧
        alookup net'.parameters s = none) := by
  obtain ⟨R', ns', hokN, hnet⟩ := attach_parameters_ok net net' hok
  rw [hsplit] at hokN
  obtain ⟨Q₁, ms₁, ms₂, hA, hB, hcat⟩ := attachNodes_split _ _ _ _ _ hokN
  obtain ⟨Q₂, dfull, ns₂', hC, hD, hcons⟩ := attachNodes_cons_ok _ _ _ _ _ hB
  rw [hdata] at hC
  obtain ⟨Q₃, d₁', dtail, hE, hF, hcat2⟩ := attachData_split _ _ _ _ _ _ hC
  obtain ⟨Q₄, va, d₂', hG, hH, hcons2⟩ := attachData_cons_ok _ _ _ _ _ _ _ hF
  have hlen1 : ms₁.length = ns₁.length := by
    have := congrArg List.length (attachNodes_names _ _ _ _ hA)
    simpa using this
  have hlen2 : d₁'.length = d₁.length := by
    have := congrArg List.length (attachData_keys _ _ _ _ _ hE)
    simpa using this
  constructor
  · intro p hp
    have hQ₁s : alookup Q₁ s = some p := by
      rw [attachNodes_noStr_reg s _ ns₁ _ _ hA hfirstN]
      exact hp
    have hQ₃s : alookup Q₃ s = some p := by
      rw [attachData_noStr_reg node.name s _ d₁ _ _ hE hfirstD]
      exact hQ₁s
    obtain ⟨dp, hpp⟩ := regWF_lookup net.parameters s p hWF hp
    have htr : truthy p = true := by rw [hpp]; rfl
    have hav := attachValue_str_some Q₃ node.name a s p hexcl hQ₃s htr
    rw [hav] at hG
    simp at hG
    have hndQ₃ : keysNodup Q₃ = true :=
      attachData_reg_nodup node.name Q₁ d₁ Q₃ d₁' hE
        (attachNodes_reg_nodup _ ns₁ _ _ hA hND)
    have hQ₄s : alookup Q₄ s = none := by
      rw [← hG.1]
      exact aerase_lookup_self Q₃ s hndQ₃
    have hQ₂s : alookup Q₂ s = none :=
      attachData_reg_none node.name s Q₄ d₂ Q₂ d₂' hH hQ₄s
    have hR's : alookup R' s = none :=
      attachNodes_reg_none s Q₂ ns₂ R' ns₂' hD hQ₂s
    refine ⟨ms₁, d₁', d₂', ns₂', ?_, hlen1, hlen2, ?_⟩
    · rw [hnet]
      dsimp only
      rw [hcat, hcons, hcat2, hcons2, hG.2]
    · rw [hnet]
      exact hR's
  · intro hp
    have hQ₁s : alookup Q₁ s = none := attachNodes_reg_none s _ ns₁ _ _ hA hp
    have hQ₃s : alookup Q₃ s = none :=
      attachData_reg_none node.name s _ d₁ _ _ hE hQ₁s
    have hav := attachValue_str_none Q₃ node.name a s hexcl hQ₃s
    rw [hav] at hG
    simp at hG
    have hQ₄s : alookup Q₄ s = none := by
      rw [← hG.1]
      exact hQ₃s
    have hQ₂s : alookup Q₂ s = none :=
      attachData_reg_none node.name s Q₄ d₂ Q₂ d₂' hH hQ₄s
    have hR's : alookup R' s = none :=
      attachNodes_reg_none s Q₂ ns₂ R' ns₂' hD hQ₂s
    refine ⟨ms₁, d₁', d₂', ns₂', ?_, hlen1, hlen2, ?_⟩
    · rw [hnet]
      dsimp only
      rw [hcat, hcons, hcat2, hcons2, hG.2]
    · rw [hnet]
      exact hR's

/-- Witness for C2: the spec's `flow_max` example.  A node attribute
holding the string `flow_max` receives the registry's parameter object
and `flow_max` leaves the registry. -/
theorem C2_string_reference_attachment_witness :
    excludedAttr "max_flow" = false ∧
    ∃ ns₁' d₁' d₂' ns₂',
      ([(⟨"N", [("max_flow", PValue.pparam "flow_max" [("type", PValue.pstr "c")])]⟩ : PywrNode)]) =
        ns₁' ++ (⟨"N", d₁' ++ ("max_flow", PValue.pparam "flow_max" [("type", PValue.pstr "c")]) :: d₂'⟩ : PywrNode) :: ns₂' ∧
      ns₁'.length = ([] : List PywrNode).length ∧
      d₁'.length = ([] : List (String × PValue)).length ∧
      alookup ([] : List (String × PValue)) "flow_max" = none := by
  refine ⟨by decide, ?_⟩
  exact (C2_string_reference_attachment
    ⟨[], [], [], [], [⟨"N", [("max_flow", .pstr "flow_max")]⟩], [],
      [("flow_max", .pparam "flow_max" [("type", .pstr "c")])], []⟩
    ⟨[], [], [], [], [⟨"N", [("max_flow", .pparam "flow_max" [("type", .pstr "c")])]⟩],
      [], [], []⟩
    [] [] ⟨"N", [("max_flow", .pstr "flow_max")]⟩ [] [] "max_flow" "flow_max"
    rfl rfl (by decide) (by decide) (by decide) (by decide) (by decide) rfl).1
    (.pparam "flow_max" [("type", .pstr "c")]) rfl

/-- Claim C4: during `detach_parameters()`, a node attribute holding a
parameter object has the parameter inserted into the registry keyed by
its name and the attribute replaced by that name string; a fatal error
is raised if and only if the name is already a registry key at the time
the attribute is processed (the registry at that point is `Q`, obtained
by processing the preceding attributes `d₁`). -/
theorem C4_detach_parameter_objects (R d₁ Q r₁ : List (String × PValue))
    (a nm : String) (dd d₂ : List (String × PValue))
    (h₁ : detachData R d₁ = .ok (Q, r₁)) :
    (alookup Q nm = none →
      detachData R (d₁ ++ (a, .pparam nm dd) :: d₂) =
        match detachData (Q ++ [(nm, .pparam nm dd)]) d₂ with
        | .error e => .error e
        | .ok (R₂, r₂) => .ok (R₂, r₁ ++ (a, .pstr nm) :: r₂)) ∧
    ((alookup Q nm).isSome = true →
      detachData R (d₁ ++ (a, .pparam nm dd) :: d₂) =
        .error "Attr param name duplicates global param name") := by
  constructor
  · intro hn
    rw [detachData_append, h₁]
    dsimp only
    simp only [detachData, detachValue_param_none Q nm dd hn]
    rcases h2 : detachData (Q ++ [(nm, .pparam nm dd)]) d₂ with e | ⟨R₂, r₂⟩ <;>
      simp [h2]
  · intro hs
    rw [detachData_append, h₁]
    dsimp only
    simp only [detachData, detachValue_param_some Q nm dd hs]

/-- Witness for C4: a lone parameter-valued attribute is moved into the
empty registry and replaced by its name; with the name already present
the fatal duplicate error is raised instead. -/
theorem C4_detach_parameter_objects_witness :
    alookup ([] : List (String × PValue)) "p" = none ∧
    detachData [] [("attr", PValue.pparam "p" [("type", PValue.pstr "c")])] =
      .ok ([("p", PValue.pparam "p" [("type", PValue.pstr "c")])],
           [("attr", PValue.pstr "p")]) ∧
    detachData [("p", PValue.pparam "p" [("type", PValue.pstr "c")])]
      [("attr", PValue.pparam "p" [("type", PValue.pstr "c")])] =
      .error "Attr param name duplicates global param name" :=
  ⟨rfl,
   (C4_detach_parameter_objects [] [] [] [] "attr" "p"
     [("type", PValue.pstr "c")] [] rfl).1 rfl,
   (C4_detach_parameter_objects [("p", PValue.pparam "p" [("type", PValue.pstr "c")])]
     [] [("p", PValue.pparam "p" [("type", PValue.pstr "c")])] [] "attr" "p"
     [("type", PValue.pstr "c")] [] rfl).2 rfl⟩

/-- Claim C3 (amended): during `attach_parameters()`, a non-excluded
dict-valued attribute is skipped when its `type` field is absent, falsy
(for instance the empty string — the code tests Python truthiness, not
mere absence), or a string containing `recorder` case-insensitively;
when the `type` is a truthy non-recorder string, a new parameter named
`canonical_name(node, attr)` replaces the value, and the fatal
collision error is raised if and only if that canonical name is a
registry key at the time the attribute is processed. -/
theorem C3_inline_dict_promotion (n : String)
    (R d₁ Q r₁ : List (String × PValue)) (a : String)
    (dd d₂ : List (String × PValue))
    (hexcl : excludedAttr a = false)
    (h₁ : attachData n R d₁ = .ok (Q, r₁)) :
    (alookup dd "type" = none →
      attachData n R (d₁ ++ (a, .pdict dd) :: d₂) =
        match attachData n Q d₂ with
        | .error e => .error e
        | .ok (R₂, r₂) => .ok (R₂, r₁ ++ (a, .pdict dd) :: r₂)) ∧
    (∀ tv, alookup dd "type" = some tv → truthy tv = false →
      attachData n R (d₁ ++ (a, .pdict dd) :: d₂) =
        match attachData n Q d₂ with
        | .error e => .error e
        | .ok (R₂, r₂) => .ok (R₂, r₁ ++ (a, .pdict dd) :: r₂)) ∧
    (∀ t, alookup dd "type" = some (.pstr t) → containsRecorder t = true →
      attachData n R (d₁ ++ (a, .pdict dd) :: d₂) =
        match attachData n Q d₂ with
        | .error e => .error e
        | .ok (R₂, r₂) => .ok (R₂, r₁ ++ (a, .pdict dd) :: r₂)) ∧
    (∀ t, alookup dd "type" = some (.pstr t) → truthy (.pstr t) = true →
      containsRecorder t = false →
      ((alookup Q (canonical_name n a)).isSome = true →
        attachData n R (d₁ ++ (a, .pdict dd) :: d₂) =
          .error "inline dups global param") ∧
      (alookup Q (canonical_name n a) = none →
        attachData n R (d₁ ++ (a, .pdict dd) :: d₂) =
          match attachData n Q d₂ with
          | .error e => .error e
          | .ok (R₂, r₂) =>
              .ok (R₂, r₁ ++ (a, .pparam (canonical_name n a) dd) :: r₂))) := by
  have hskip : dictSkipped dd = true →
      attachData n R (d₁ ++ (a, .pdict dd) :: d₂) =
        match attachData n Q d₂ with
        | .error e => .error e
        | .ok (R₂, r₂) => .ok (R₂, r₁ ++ (a, .pdict dd) :: r₂) := by
    intro hs
    rw [attachData_append, h₁]
    dsimp only
    simp only [attachData, attachValue_dict_skip Q n a dd hs]
    rcases h2 : attachData n Q d₂ with e | ⟨R₂, r₂⟩ <;> simp [h2]
  refine ⟨?_, ?_, ?_, ?_⟩
  · intro htv
    exact hskip (by simp [dictSkipped, htv])
  · intro tv htv ht
    refine hskip ?_
    cases tv with
    | pstr t =>
        have hte : t.isEmpty = true := by
          simp only [truthy] at ht
          simpa using ht
        simp [dictSkipped, htv, hte]
    | pint m => simp [dictSkipped, htv, truthy] at ht ⊢; simpa using ht
    | pdict d' => simp [dictSkipped, htv, truthy] at ht ⊢; simpa using ht
    | pparam nm dp => simp [truthy] at ht
    | precorder nm dp => simp [truthy] at ht
  · intro t htv hr
    exact hskip (by simp [dictSkipped, htv, hr])
  · intro t htv ht hr
    have hne : ¬ t.isEmpty = true := by
      simp only [truthy] at ht
      simp at ht
      simp [ht]
    constructor
    · intro hcn
      rw [attachData_append, h₁]
      dsimp only
      simp only [attachData]
      rw [show attachValue Q n a (.pdict dd) = .error "inline dups global param" by
        simp [attachValue, hexcl, htv, truthy, hne, hr, hcn]]
    · intro hcn
      rw [attachData_append, h₁]
      dsimp only
      simp only [attachData]
      rw [show attachValue Q n a (.pdict dd) =
          .ok (Q, .pparam (canonical_name n a) dd) by
        simp [attachValue, hexcl, htv, truthy, hne, hr, hcn]]
      rcases h2 : attachData n Q d₂ with e | ⟨R₂, r₂⟩ <;> simp [h2]

/-- Counterexample to claim C3 as stated: a dict attribute whose `type`
field is present (the empty string) and does not contain `recorder`,
with no possible name collision, is nevertheless skipped unchanged by
`attach_parameters()` — the code tests Python truthiness of the `type`
field, not just its absence, so no parameter is constructed. -/
theorem C3_inline_dict_promotion_cex :
    attach_parameters
      (⟨[], [], [], [], [⟨"N", [("a", .pdict [("type", .pstr "")])]⟩],
        [], [], []⟩ : PywrNetwork) =
      .ok ⟨[], [], [], [], [⟨"N", [("a", .pdict [("type", .pstr "")])]⟩],
        [], [], []⟩ ∧
    alookup [("type", PValue.pstr "")] "type" = some (PValue.pstr "") ∧
    containsRecorder "" = false ∧
    (alookup ([] : List (String × PValue)) (canonical_name "N" "a")).isSome = false :=
  ⟨rfl, rfl, rfl, rfl⟩

/-- Witness for the amended C3: the spec's `monthlyprofileparameter`
example on node `Reservoir1`, attribute `max_flow` — the dict is
promoted to a parameter carrying the canonical name. -/
theorem C3_inline_dict_promotion_witness :
    excludedAttr "max_flow" = false ∧
    attachData "Reservoir1" []
      [("max_flow", PValue.pdict [("type", PValue.pstr "monthlyprofileparameter")])] =
      .ok ([], [("max_flow",
        PValue.pparam "__Reservoir1__:max_flow"
          [("type", PValue.pstr "monthlyprofileparameter")])]) :=
  ⟨by decide,
   ((C3_inline_dict_promotion "Reservoir1" [] [] [] [] "max_flow"
      [("type", PValue.pstr "monthlyprofileparameter")] []
      (by decide) rfl).2.2.2 "monthlyprofileparameter" rfl rfl (by decide)).2 rfl⟩

/-- Claim C9: during a single `attach_parameters()`, each global
parameter is attached to at most one node attribute.  The first
attribute (in processing order) holding the reference string receives
the parameter object; the registry removal is observed by every later
attribute, which keeps the plain string. -/
theorem C9_first_claimant_wins
    (net net' : PywrNetwork) (ns₁ ns₂ : List PywrNode) (node : PywrNode)
    (d₁ d₂ : List (String × PValue)) (a s : String) (p : PValue)
    (hsplit : net.nodes = ns₁ ++ node :: ns₂)
    (hdata : node.data = d₁ ++ (a, .pstr s) :: d₂)
    (hexcl : excludedAttr a = false)
    (hWF : regWF net.parameters = true)
    (hND : keysNodup net.parameters = true)
    (hfirstN : noStrNodes s ns₁ = true)
    (hfirstD : noStrData s d₁ = true)
    (hp : alookup net.parameters s = some p)
    (hok : attach_parameters net = .ok net') :
    ∃ ns₁' d₁' d₂' ns₂',
      net'.nodes = ns₁' ++ (⟨node.name, d₁' ++ (a, p) :: d₂'⟩ : PywrNode) :: ns₂' ∧
      alookup net'.parameters s = none ∧
      List.Forall₂ (keepsStr s) d₂ d₂' ∧
      List.Forall₂ (keepsStrNode s) ns₂ ns₂' := by
  obtain ⟨R', ns', hokN, hnet⟩ := attach_parameters_ok net net' hok
  rw [hsplit] at hokN
  obtain ⟨Q₁, ms₁, ms₂, hA, hB, hcat⟩ := attachNodes_split _ _ _ _ _ hokN
  obtain ⟨Q₂, dfull, ns₂', hC, hD, hcons⟩ := attachNodes_cons_ok _ _ _ _ _ hB
  rw [hdata] at hC
  obtain ⟨Q₃, d₁', dtail, hE, hF, hcat2⟩ := attachData_split _ _ _ _ _ _ hC
  obtain ⟨Q₄, va, d₂', hG, hH, hcons2⟩ := attachData_cons_ok _ _ _ _ _ _ _ hF
  have hQ₁s : alookup Q₁ s = some p := by
    rw [attachNodes_noStr_reg s _ ns₁ _ _ hA hfirstN]
    exact hp
  have hQ₃s : alookup Q₃ s = some p := by
    rw [attachData_noStr_reg node.name s _ d₁ _ _ hE hfirstD]
    exact hQ₁s
  obtain ⟨dp, hpp⟩ := regWF_lookup net.parameters s p hWF hp
  have htr : truthy p = true := by rw [hpp]; rfl
  have hav := attachValue_str_some Q₃ node.name a s p hexcl hQ₃s htr
  rw [hav] at hG
  simp at hG
  have hndQ₃ : keysNodup Q₃ = true :=
    attachData_reg_nodup node.name Q₁ d₁ Q₃ d₁' hE
      (attachNodes_reg_nodup _ ns₁ _ _ hA hND)
  have hQ₄s : alookup Q₄ s = none := by
    rw [← hG.1]
    exact aerase_lookup_self Q₃ s hndQ₃
  obtain ⟨hFd, hQ₂s⟩ := attachData_keepsStr node.name s Q₄ d₂ Q₂ d₂' hH hQ₄s
  obtain ⟨hFn, hR's⟩ := attachNodes_keepsStr s Q₂ ns₂ R' ns₂' hD hQ₂s
  refine ⟨ms₁, d₁', d₂', ns₂', ?_, ?_, hFd, hFn⟩
  · rw [hnet]
    dsimp only
    rw [hcat, hcons, hcat2, hcons2, hG.2]
  · rw [hnet]
    exact hR's

/-- Witness for C9: two attributes of one node hold the string `P`
naming a global parameter; the first is attached, the second keeps the
plain string. -/
theorem C9_first_claimant_wins_witness :
    alookup [("P", PValue.pparam "P" [("type", PValue.pstr "c")])] "P" =
      some (PValue.pparam "P" [("type", PValue.pstr "c")]) ∧
    ∃ ns₁' d₁' d₂' ns₂',
      ([(⟨"N", [("a1", PValue.pparam "P" [("type", PValue.pstr "c")]),
                ("a2", PValue.pstr "P")]⟩ : PywrNode)]) =
        ns₁' ++ (⟨"N", d₁' ++ ("a1", PValue.pparam "P" [("type", PValue.pstr "c")]) :: d₂'⟩ : PywrNode) :: ns₂' ∧
      alookup ([] : List (String × PValue)) "P" = none ∧
      List.Forall₂ (keepsStr "P") [("a2", PValue.pstr "P")] d₂' ∧
      List.Forall₂ (keepsStrNode "P") [] ns₂' := by
  refine ⟨rfl, ?_⟩
  exact C9_first_claimant_wins
    ⟨[], [], [], [], [⟨"N", [("a1", .pstr "P"), ("a2", .pstr "P")]⟩], [],
      [("P", .pparam "P" [("type", .pstr "c")])], []⟩
    ⟨[], [], [], [], [⟨"N", [("a1", .pparam "P" [("type", .pstr "c")]),
                             ("a2", .pstr "P")]⟩], [], [], []⟩
    [] [] ⟨"N", [("a1", .pstr "P"), ("a2", .pstr "P")]⟩ [] [("a2", .pstr "P")]
    "a1" "P" (.pparam "P" [("type", .pstr "c")])
    rfl rfl (by decide) (by decide) (by decide) (by decide) (by decide) rfl rfl

/-- Claim C7: `as_dict()` always contains the keys `metadata`,
`timestepper`, `nodes` and `edges`; each of `parameters`, `recorders`,
`scenarios` and `tables` is present exactly when the collection is
non-empty, and then its entry has as many members as the collection. -/
theorem C7_as_dict_keys (net : PywrNetwork) :
    alookup (as_dict net) "metadata" = some (.jraw (.pdict net.metadata)) ∧
    alookup (as_dict net) "timestepper" = some (.jraw (.pdict net.timestepper)) ∧
    alookup (as_dict net) "nodes" =
      some (.jarr (net.nodes.map (fun nd => .jraw (.pdict nd.data)))) ∧
    alookup (as_dict net) "edges" =
      some (.jarr (net.edges.map (fun e => .jedge e))) ∧
    alookup (as_dict net) "parameters" =
      (if net.parameters.length > 0 then
        some (.jobj (net.parameters.map (fun kv => (kv.1, .jraw kv.2))))
       else none) ∧
    alookup (as_dict net) "recorders" =
      (if net.recorders.length > 0 then
        some (.jobj (net.recorders.map (fun kv => (kv.1, .jraw kv.2))))
       else none) ∧
    alookup (as_dict net) "scenarios" =
      (if net.scenarios.length > 0 then
        some (.jarr (net.scenarios.map (fun s => .jraw (.pdict s))))
       else none) ∧
    alookup (as_dict net) "tables" =
      (if net.tables.length > 0 then
        some (.jobj (net.tables.map (fun kv => (kv.1, .jraw (.pdict kv.2)))))
       else none) ∧
    (net.parameters.map (fun kv => (kv.1, JValue.jraw kv.2))).length =
      net.parameters.length ∧
    (net.recorders.map (fun kv => (kv.1, JValue.jraw kv.2))).length =
      net.recorders.length ∧
    (net.scenarios.map (fun s => JValue.jraw (.pdict s))).length =
      net.scenarios.length ∧
    (net.tables.map (fun kv => (kv.1, JValue.jraw (.pdict kv.2)))).length =
      net.tables.length := by
  unfold as_dict
  by_cases h1 : net.parameters.length > 0 <;>
    by_cases h2 : net.recorders.length > 0 <;>
      by_cases h3 : net.scenarios.length > 0 <;>
        by_cases h4 : net.tables.length > 0 <;>
          refine ⟨?_, ?_, ?_, ?_, ?_, ?_, ?_, ?_,
            List.length_map _ _, List.length_map _ _,
            List.length_map _ _, List.length_map _ _⟩ <;>
            simp only [h1, h2, h3, h4, if_pos, if_neg, if_true, if_false,
              not_false_eq_true, gt_iff_lt, not_lt, Nat.le_zero] <;>
            rfl

/-- Claim C8 (code evidence): `duplicate_edges` counts duplicate
two-node edges correctly, but the generator `(n1, n2) for (n1, n2) in
self.edges` unpacks each edge into exactly two names, so an edge of
three node names — permitted by the spec's data model and by the
method's own docstring ("edges of length n") — raises `ValueError`
instead of being counted. -/
theorem C8_duplicate_edges_unpacking :
    duplicate_edges [["A", "B"], ["B", "C"], ["A", "B"]] =
      .ok [(("A", "B"), 2)] ∧
    duplicate_edges [["A", "B", "C"]] =
      .error "ValueError: unpacking edge tuple" :=
  ⟨rfl, rfl⟩

/-- Claim C6 (code evidence): `from_json` constructs the parser outside
any try/except, so a `PywrParserException` raised by the parser
constructor propagates to the caller even though
`raise_on_parser_error` is false; `from_file` guards the same
construction and returns the error in the three-way tuple instead. -/
theorem C6_from_json_ctor_exception :
    from_json ⟨some "Invalid JSON document", [], []⟩ false false =
      .error "Invalid JSON document" ∧
    from_file (.readable ⟨some "Invalid JSON document", [], []⟩) false false =
      .ok (none, some [("network", ["Invalid JSON document"])], none) :=
  ⟨rfl, rfl⟩

end Pywr
